import Mathlib

/-!
Verification development for the ts-callpath repository.

The definitions below are a shallow embedding of the program's data model
and algorithms:

* `types.ts` — function identifiers, graph structures, `addNode`/`addEdge`;
* `graph.ts` — `forwardBfs`, `mergeGraphs`, `backwardReachable`, `sliceGraph`
  (the stateful breadth-first loops are embedded as fuel-indexed recursions:
  a result of `none` means the fuel ran out, `some` is the value the
  program's loop returns);
* `parser.ts` — a restricted TypeScript AST and the call-site / DI-default /
  export extraction, plus the `<module>` synthesis;
* `resolver.ts` — module resolution and the call-site resolution strategies
  (file-system and TypeScript-API lookups are oracles in an environment
  record, the recursive strategies are fuel-indexed);
* `dotRenderer.ts` — `edgeStyle` and the edge-line rendering;
* `layout-utils.ts` — the cluster-order derivation of `assignCoordinates`.

JavaScript `Map`s are embedded as association lists in insertion order,
JavaScript `Set`s as duplicate-free lists in insertion order.
-/

/-! ## Association-list maps (JS `Map` in insertion order) -/

/-- Lookup in an association list: first entry whose key matches (JS `Map.get`). -/
def mapGet? {α : Type} (m : List (String × α)) (k : String) : Option α :=
  match m with
  | [] => none
  | (k', v) :: rest => if k' = k then some v else mapGet? rest k

/-- Key-presence test (JS `Map.has`). -/
def mapHas {α : Type} (m : List (String × α)) (k : String) : Bool :=
  (mapGet? m k).isSome

/-- JS `Map.set`: replace the value in place when the key exists, else append. -/
def mapSet {α : Type} (m : List (String × α)) (k : String) (v : α) : List (String × α) :=
  match m with
  | [] => [(k, v)]
  | (k', v') :: rest => if k' = k then (k', v) :: rest else (k', v') :: mapSet rest k v

/-- JS `Set.add` on a duplicate-free list: append when absent. -/
def setAdd (s : List String) (x : String) : List String :=
  if s.contains x then s else s ++ [x]

/-! ## FunctionId (`types.ts`)

`makeFunctionId` joins path and qualified name with `::`; `parseFunctionId`
splits at the first occurrence of `::` and throws (here: `none`) when there
is none. -/

/-- Index of the first occurrence of the two-character sequence `::` in a
character list (JS `String.indexOf("::")`, with `none` for `-1`). -/
def ccIdx : List Char → Option Nat
  | [] => none
  | [_] => none
  | c :: d :: rest =>
    if c = ':' ∧ d = ':' then some 0 else (ccIdx (d :: rest)).map (· + 1)

/-- True when the character list has no occurrence of `::`. -/
def ccFree : List Char → Bool
  | [] => true
  | [_] => true
  | c :: d :: rest =>
    if c = ':' ∧ d = ':' then false else ccFree (d :: rest)

/-- Embedding of `makeFunctionId` from `types.ts`. -/
def makeFunctionId (filePath qualifiedName : String) : String :=
  filePath ++ "::" ++ qualifiedName

/-- Embedding of `parseFunctionId` from `types.ts`: split at the first `::`;
the `throw` on a separator-free input is modelled as `none`. -/
def parseFunctionId (id : String) : Option (String × String) :=
  match ccIdx id.data with
  | none => none
  | some sep => some (String.mk (id.data.take sep), String.mk (id.data.drop (sep + 2)))

/-! ## Data model (`types.ts`) -/

/-- Embedding of the `FunctionNode` record. Optional fields are `Option`s;
the absent `isExternal` flag is `false`. -/
structure FunctionNode where
  id : String
  filePath : String
  qualifiedName : String
  line : Nat
  endLine : Option Nat := none
  isInstrumented : Bool
  isExternal : Bool := false
  description : Option String := none
  signature : Option String := none
deriving Repr, DecidableEq

/-- Embedding of the closed `EdgeKind` union. -/
inductive EdgeKind where
  | direct
  | staticMethod
  | diDefault
  | instrumentWrapper
  | instanceMethod
  | reExport
  | external
deriving Repr, DecidableEq

/-- Embedding of the `CallEdge` record. -/
structure CallEdge where
  callerId : String
  calleeId : String
  kind : EdgeKind
  callLine : Nat
deriving Repr, DecidableEq

/-- Embedding of `CallGraph`: node map, both adjacency maps, and the edge list. -/
structure CallGraph where
  nodes : List (String × FunctionNode)
  forwardEdges : List (String × List CallEdge)
  reverseEdges : List (String × List CallEdge)
  edges : List CallEdge
deriving Repr, DecidableEq

/-- Embedding of `createEmptyGraph`. -/
def createEmptyGraph : CallGraph :=
  { nodes := [], forwardEdges := [], reverseEdges := [], edges := [] }

/-- Embedding of `addNode`: first write wins. -/
def addNode (graph : CallGraph) (node : FunctionNode) : CallGraph :=
  if mapHas graph.nodes node.id then graph
  else { graph with nodes := graph.nodes ++ [(node.id, node)] }

/-- Push an edge onto the adjacency list stored under a key, creating the
entry when absent (the `get`-or-create pattern of `addEdge`). -/
def adjPush (m : List (String × List CallEdge)) (k : String) (e : CallEdge) :
    List (String × List CallEdge) :=
  match mapGet? m k with
  | none => m ++ [(k, [e])]
  | some es => mapSet m k (es ++ [e])

/-- Embedding of `addEdge`: append to `edges` and to both adjacency lists. -/
def addEdge (graph : CallGraph) (edge : CallEdge) : CallGraph :=
  { graph with
    edges := graph.edges ++ [edge]
    forwardEdges := adjPush graph.forwardEdges edge.callerId edge
    reverseEdges := adjPush graph.reverseEdges edge.calleeId edge }

/-- Embedding of `CallSite`: exactly one of the named/member shapes is used. -/
structure CallSite where
  calleeName : Option String := none
  objectName : Option String := none
  propertyName : Option String := none
  line : Nat
deriving Repr, DecidableEq

/-- Embedding of `FieldAssignment`. -/
structure FieldAssignment where
  fieldName : String
  paramName : Option String := none
  propName : Option String := none
  localRef : Option String := none
deriving Repr, DecidableEq

/-- Embedding of `DiDefaultMapping`. -/
structure DiDefaultMapping where
  paramName : String
  propName : String
  localRef : Option String := none
  objectRef : Option String := none
  methodRef : Option String := none
deriving Repr, DecidableEq

/-- Embedding of `ParsedFunction`. -/
structure ParsedFunction where
  qualifiedName : String
  line : Nat
  endLine : Option Nat := none
  isInstrumented : Bool
  callSites : List CallSite
  diDefaults : List DiDefaultMapping
  fieldAssignments : Option (List FieldAssignment) := none
  description : Option String := none
  signature : Option String := none
deriving Repr, DecidableEq

/-- Embedding of `ImportInfo`. -/
structure ImportInfo where
  localName : String
  importedName : String
  moduleSpecifier : String
  isNamespace : Bool
deriving Repr, DecidableEq

/-- Embedding of `ReExportInfo`. -/
structure ReExportInfo where
  exportedName : String
  importedName : String
  moduleSpecifier : String
deriving Repr, DecidableEq

/-- Embedding of `ParsedFile`. -/
structure ParsedFile where
  filePath : String
  functions : List ParsedFunction
  imports : List ImportInfo
  reExports : List ReExportInfo
  exportedNames : List (String × String)
  objectPropertyBindings : List (String × String)
  instanceBindings : List (String × String)
deriving Repr, DecidableEq

/-! ## Graph builder and slicer (`graph.ts`) -/

/-- Outcome of one call-site resolution (`resolveCallSite`'s return shape). -/
structure Resolution where
  targetId : String
  targetNode : FunctionNode
  kind : EdgeKind
deriving Repr, DecidableEq

/-- The resolver interface consumed by `forwardBfs` (its three method calls). -/
structure ResolverM where
  getFile : String → Option ParsedFile
  resolveQualifiedName : String → String → Option (String × ParsedFunction)
  resolveCallSite : CallSite → ParsedFile → ParsedFunction → Option Resolution

/-- Embedding of `BfsOptions` (the `verbose` flag only drives logging). -/
structure BfsOptions where
  maxDepth : Nat
  maxNodes : Nat
deriving Repr, DecidableEq

/-- Edge deduplication key from `forwardBfs` and `mergeGraphs`. -/
def edgeKeyOf (callerId calleeId : String) : String :=
  callerId ++ "→" ++ calleeId

/-- State threaded through the call-site loop of `forwardBfs`. -/
structure BfsState where
  graph : CallGraph
  visited : List String
  edgeKeys : List String
  newQueue : List (String × Nat)

/-- One resolved call site inside the loop of `forwardBfs`: insert the
target node, append the edge unless its key was seen, and enqueue the target
unless visited. -/
def stepResolution (currentId : String) (depth : Nat) (cs : CallSite) (res : Resolution)
    (st : BfsState) : BfsState :=
  let g1 := addNode st.graph res.targetNode
  let key := edgeKeyOf currentId res.targetId
  let g2 :=
    if st.edgeKeys.contains key then g1
    else
      addEdge g1
        { callerId := currentId, calleeId := res.targetId,
          kind := res.kind, callLine := cs.line }
  let keys2 := if st.edgeKeys.contains key then st.edgeKeys else st.edgeKeys ++ [key]
  let vis3 := if st.visited.contains res.targetId then st.visited else st.visited ++ [res.targetId]
  let q3 :=
    if st.visited.contains res.targetId then st.newQueue
    else st.newQueue ++ [(res.targetId, depth + 1)]
  { graph := g2, visited := vis3, edgeKeys := keys2, newQueue := q3 }

/-- Inner loop of `forwardBfs`: process each call site of the dequeued
function (resolve, insert node, dedup-append edge, enqueue unvisited;
self-loops are dropped). -/
def processCallSites (r : ResolverM) (curFile : ParsedFile) (curFn : ParsedFunction)
    (currentId : String) (depth : Nat) : List CallSite → BfsState → BfsState
  | [], st => st
  | cs :: rest, st =>
    match r.resolveCallSite cs curFile curFn with
    | none => processCallSites r curFile curFn currentId depth rest st
    | some res =>
      if res.targetId = currentId then
        processCallSites r curFile curFn currentId depth rest st
      else
        processCallSites r curFile curFn currentId depth rest
          (stepResolution currentId depth cs res st)

/-- Outer loop of `forwardBfs`, fuel-indexed; `none` means the fuel ran out
before the queue drained. -/
def bfsLoop (r : ResolverM) (o : BfsOptions) :
    Nat → List (String × Nat) → List String → List String → CallGraph → Option CallGraph
  | 0, _, _, _, _ => none
  | _ + 1, [], _, _, graph => some graph
  | fuel + 1, (currentId, depth) :: rest, visited, edgeKeys, graph =>
    if o.maxDepth ≤ depth then bfsLoop r o fuel rest visited edgeKeys graph
    else if o.maxNodes ≤ graph.nodes.length then some graph
    else
      match parseFunctionId currentId with
      | none => none
      | some (curFilePath, curQualName) =>
        match r.getFile curFilePath with
        | none => bfsLoop r o fuel rest visited edgeKeys graph
        | some curFile =>
          match curFile.functions.find? (fun f => f.qualifiedName = curQualName) with
          | none => bfsLoop r o fuel rest visited edgeKeys graph
          | some curFn =>
            let st := processCallSites r curFile curFn currentId depth curFn.callSites
              { graph := graph, visited := visited, edgeKeys := edgeKeys, newQueue := [] }
            bfsLoop r o fuel (rest ++ st.newQueue) st.visited st.edgeKeys st.graph

/-- Embedding of `forwardBfs` from `graph.ts` (fuel-indexed; a thrown
`parseFunctionId` error is modelled as `none`). -/
def forwardBfs (fuel : Nat) (sourceId : String) (r : ResolverM) (o : BfsOptions) :
    Option CallGraph :=
  match parseFunctionId sourceId with
  | none => none
  | some (filePath, qualifiedName) =>
    match r.getFile filePath with
    | none => some createEmptyGraph
    | some _ =>
      match r.resolveQualifiedName filePath qualifiedName with
      | none => some createEmptyGraph
      | some (resolvedQN, startFn) =>
        let resolvedSourceId :=
          if resolvedQN ≠ qualifiedName then makeFunctionId filePath resolvedQN else sourceId
        let startNode : FunctionNode :=
          { id := resolvedSourceId, filePath := filePath, qualifiedName := resolvedQN,
            line := startFn.line, endLine := startFn.endLine,
            isInstrumented := startFn.isInstrumented,
            description := startFn.description, signature := startFn.signature }
        bfsLoop r o fuel [(resolvedSourceId, 0)] [resolvedSourceId] []
          (addNode createEmptyGraph startNode)

/-- One edge's contribution inside `mergeGraphs`: append it unless its
deduplication key was already seen. -/
def mergeStep (p : CallGraph × List String) (e : CallEdge) : CallGraph × List String :=
  if p.2.contains (edgeKeyOf e.callerId e.calleeId) then p
  else (addEdge p.1 e, p.2 ++ [edgeKeyOf e.callerId e.calleeId])

/-- One graph's contribution inside `mergeGraphs`: union the nodes, then
append its edges with edge-key deduplication. -/
def mergeOne (acc : CallGraph × List String) (g : CallGraph) : CallGraph × List String :=
  let withNodes := g.nodes.foldl (fun m kv => addNode m kv.2) acc.1
  g.edges.foldl mergeStep (withNodes, acc.2)

/-- Embedding of `mergeGraphs` from `graph.ts`. -/
def mergeGraphs (graphs : List CallGraph) : CallGraph :=
  (graphs.foldl mergeOne (createEmptyGraph, [])).1

/-- One neighbor of the breadth-first closure walks: mark as reachable and
record as newly seen unless already reachable. -/
def bfsStep (p : List String × List String) (n : String) : List String × List String :=
  if p.1.contains n then p else (p.1 ++ [n], p.2 ++ [n])

/-- Generic queue/visited breadth-first closure shared by the two reachability
loops of `graph.ts` (`backwardReachable` and the forward walk in
`sliceGraph`); `succ` yields the neighbor ids of a dequeued id. -/
def bfsReach (succ : String → List String) :
    Nat → List String → List String → Option (List String)
  | 0, _, _ => none
  | _ + 1, [], reachable => some reachable
  | fuel + 1, current :: rest, reachable =>
    let step := (succ current).foldl bfsStep (reachable, [])
    bfsReach succ fuel (rest ++ step.2) step.1

/-- Neighbor function of the backward walk: callers of edges into the id. -/
def revSucc (graph : CallGraph) (id : String) : List String :=
  ((mapGet? graph.reverseEdges id).getD []).map (fun e => e.callerId)

/-- Neighbor function of the forward walk: callees of edges out of the id. -/
def fwdSucc (graph : CallGraph) (id : String) : List String :=
  ((mapGet? graph.forwardEdges id).getD []).map (fun e => e.calleeId)

/-- Starting state of either walk: ids of the given set that are nodes of the
graph, added to the reachable set and the queue. -/
def seedReach (graph : CallGraph) (ids : List String) : List String :=
  ids.foldl (fun acc t => if mapHas graph.nodes t ∧ ¬ acc.contains t then acc ++ [t] else acc) []

/-- Embedding of `backwardReachable` from `graph.ts`. -/
def backwardReachable (fuel : Nat) (graph : CallGraph) (targetIds : List String) :
    Option (List String) :=
  bfsReach (revSucc graph) fuel (seedReach graph targetIds) (seedReach graph targetIds)

/-- The kept node set of `sliceGraph`: forward-reachable ids also in the
backward-reachable set. -/
def sliceKeepNodes (backReachable fwdReachable : List String) : List String :=
  fwdReachable.filter (fun id => backReachable.contains id)

/-- The node-rebuilding pass of `sliceGraph` (the non-null assertion on
`graph.nodes.get` is modelled by skipping absent ids). -/
def sliceWithNodes (graph : CallGraph) (keepNodes : List String) : CallGraph :=
  keepNodes.foldl
    (fun g id =>
      match mapGet? graph.nodes id with
      | some node => addNode g node
      | none => g)
    createEmptyGraph

/-- One edge of the edge-rebuilding pass of `sliceGraph`: kept when both
endpoints are kept. -/
def sliceEdgeStep (keepNodes : List String) (g : CallGraph) (e : CallEdge) : CallGraph :=
  if keepNodes.contains e.callerId ∧ keepNodes.contains e.calleeId then addEdge g e else g

/-- The edge-rebuilding pass of `sliceGraph`. -/
def sliceEdges (graph : CallGraph) (keepNodes : List String) (g0 : CallGraph) : CallGraph :=
  graph.edges.foldl (sliceEdgeStep keepNodes) g0

/-- Embedding of `sliceGraph` from `graph.ts`: intersect the backward- and
forward-reachable sets, then rebuild the induced subgraph. -/
def sliceGraph (fuel : Nat) (graph : CallGraph) (sourceIds targetIds : List String) :
    Option CallGraph :=
  match backwardReachable fuel graph targetIds with
  | none => none
  | some backReachable =>
    match bfsReach (fwdSucc graph) fuel (seedReach graph sourceIds) (seedReach graph sourceIds) with
    | none => none
    | some fwdReachable =>
      let keepNodes := sliceKeepNodes backReachable fwdReachable
      some (sliceEdges graph keepNodes (sliceWithNodes graph keepNodes))

/-! ## Parser (`parser.ts`)

The TypeScript syntax tree is embedded as one untyped node type, mirroring
`ts.Node` with the kinds the parser inspects. Restrictions of the model:
parameters are plain identifiers, object-literal properties are plain
`name: value` assignments, and the statement forms are the ones the
parser's top-level loop handles for imports, function and class
declarations, and expression statements. -/

mutual

/-- Restricted TypeScript AST node. -/
inductive TsNode where
  | ident (name : String)
  | thisKeyword
  | strLit (value : String)
  | propAccess (obj : TsNode) (name : String)
  | callExpr (line : Nat) (callee : TsNode) (args : List TsNode)
  | newExpr (line : Nat) (callee : TsNode) (args : List TsNode)
  | arrowFn (params : List (String × Option TsNode)) (body : TsNode)
  | funcExpr (params : List (String × Option TsNode)) (body : TsNode)
  | objectLit (props : List ObjProp)
  | assignExpr (lhs rhs : TsNode)
  | parenExpr (inner : TsNode)
  | block (stmts : List TsNode)
  | exprStmt (e : TsNode)
  | returnStmt (arg : Option TsNode)
  | funcDecl (line endLine : Nat) (name : String) (exported isDefault : Bool)
      (params : List (String × Option TsNode)) (body : TsNode)
  | classDecl (name : String) (exported isDefault : Bool) (members : List TsNode)
  | ctorDecl (line endLine : Nat) (params : List (String × Option TsNode)) (body : TsNode)
  | methodDecl (line endLine : Nat) (name : String)
      (params : List (String × Option TsNode)) (body : TsNode)
  | importDecl (specifier : String) (defaultName : Option String)
      (namespaceName : Option String) (named : List (String × Option String))

/-- An object-literal property: an explicit `name: value` assignment
(`ts.PropertyAssignment`) or the shorthand `{ name }`
(`ts.ShorthandPropertyAssignment`, which has no initializer). -/
inductive ObjProp where
  | propAssign (name : String) (value : TsNode)
  | shorthand (name : String)

end

/-- A source file: its top-level statements and its total line count. -/
structure SourceFile where
  statements : List TsNode
  totalLines : Nat

/-- Embedding of `extractCallSiteFromCallExpression` from `parser.ts`. -/
def extractCallSiteFromCallExpression (line : Nat) (callee : TsNode)
    (className : Option String) : List CallSite :=
  match callee with
  | .ident name => [{ calleeName := some name, line := line }]
  | .propAccess obj propName =>
    match obj with
    | .ident objName => [{ objectName := some objName, propertyName := some propName, line := line }]
    | .thisKeyword =>
      match className with
      | some cn => [{ objectName := some cn, propertyName := some propName, line := line }]
      | none => []
    | _ => []
  | _ => []

mutual

/-- Embedding of `extractCallSites` from `parser.ts`: refuse to descend into
nested function/class declarations, handle calls and constructions
specially, otherwise walk every child. -/
def extractCallSites (node : TsNode) (className : Option String) : List CallSite :=
  match node with
  | .arrowFn _ _ => []
  | .funcExpr _ _ => []
  | .funcDecl _ _ _ _ _ _ _ => []
  | .classDecl _ _ _ _ => []
  | .ctorDecl _ _ _ _ => []
  | .methodDecl _ _ _ _ _ => []
  | .callExpr line callee args =>
    extractCallSiteFromCallExpression line callee className ++
      csArgs args className ++ extractCallSites callee className
  | .newExpr line callee args =>
    (match callee with
     | .ident name => [{ objectName := some name, propertyName := some "constructor", line := line }]
     | _ => []) ++ csArgs args className
  | .propAccess obj _ => extractCallSites obj className
  | .objectLit props => csProps props className
  | .assignExpr lhs rhs => extractCallSites lhs className ++ extractCallSites rhs className
  | .parenExpr inner => extractCallSites inner className
  | .block stmts => csList stmts className
  | .exprStmt e => extractCallSites e className
  | .returnStmt (some e) => extractCallSites e className
  | .returnStmt none => []
  | .importDecl _ _ _ _ => []
  | .ident _ => []
  | .thisKeyword => []
  | .strLit _ => []
termination_by sizeOf node

/-- Argument walk of a call or construction: arrow/function arguments are
continuations of the enclosing scope, so their bodies are walked. -/
def csArgs (args : List TsNode) (className : Option String) : List CallSite :=
  match args with
  | [] => []
  | arg :: rest =>
    (match arg with
     | .arrowFn _ body => extractCallSites body className
     | .funcExpr _ body => extractCallSites body className
     | other => extractCallSites other className) ++ csArgs rest className
termination_by sizeOf args

/-- Child walk over a statement list (`ts.forEachChild` on a block). -/
def csList (stmts : List TsNode) (className : Option String) : List CallSite :=
  match stmts with
  | [] => []
  | s :: rest => extractCallSites s className ++ csList rest className
termination_by sizeOf stmts

/-- Child walk over object-literal property initializers; a shorthand
property's only child is its name identifier, which holds no call. -/
def csProps (props : List ObjProp) (className : Option String) : List CallSite :=
  match props with
  | [] => []
  | .propAssign _ v :: rest => extractCallSites v className ++ csProps rest className
  | .shorthand _ :: rest => csProps rest className
termination_by sizeOf props

end

/-- One DI-default mapping from one object-literal property of a parameter
default (`extractDiDefaults`' inner loop). A shorthand property is skipped
(`if (!ts.isPropertyAssignment(prop)) continue` in the source), as is a
property whose value is neither an identifier nor a property access on an
identifier. -/
def diOfProp (paramName : String) (prop : ObjProp) : Option DiDefaultMapping :=
  match prop with
  | .shorthand _ => none
  | .propAssign name value =>
    match value with
    | .ident ref => some { paramName := paramName, propName := name, localRef := some ref }
    | .propAccess (.ident objRef) methodRef =>
      some { paramName := paramName, propName := name,
             objectRef := some objRef, methodRef := some methodRef }
    | _ => none

/-- Embedding of `extractDiDefaults` from `parser.ts`: parameters whose
default value is an object literal contribute one mapping per explicit
property assignment whose value is an identifier or a property access on an
identifier; shorthand properties are skipped. -/
def extractDiDefaults : List (String × Option TsNode) → List DiDefaultMapping
  | [] => []
  | (pname, init) :: rest =>
    (match init with
     | some (.objectLit props) => props.filterMap (diOfProp pname)
     | _ => []) ++ extractDiDefaults rest

/-- Modelled from the spec: constructor field-assignment extraction, which is
missing from `src/src/parser.ts` (its declaration is in `types.ts`, its tests
in the parser test file, and its consumer in `resolver.ts`, but the shipped
`extractFunction` never records `fieldAssignments`). Per the spec, within a
constructor body only, `this.F = P.K` with parameter `P` yields
`(fieldName := F, paramName := P, propName := K)`, `this.F = I` with
parameter identifier `I` yields `(fieldName := F, localRef := I)`, and all
other right-hand sides are ignored. -/
def extractFieldAssignments (params : List (String × Option TsNode)) (body : TsNode) :
    List FieldAssignment :=
  match body with
  | .block stmts =>
    stmts.filterMap (fun s =>
      match s with
      | .exprStmt (.assignExpr (.propAccess .thisKeyword fieldName) rhs) =>
        match rhs with
        | .propAccess (.ident p) k =>
          if params.any (fun pr => pr.1 = p) then
            some { fieldName := fieldName, paramName := some p, propName := some k }
          else none
        | .ident i =>
          if params.any (fun pr => pr.1 = i) then
            some { fieldName := fieldName, localRef := some i }
          else none
        | _ => none
      | _ => none)
  | _ => []

/-- Index of the first occurrence of a character (JS `String.indexOf`). -/
def charIdx (c : Char) : List Char → Option Nat
  | [] => none
  | d :: rest => if d = c then some 0 else (charIdx c rest).map (· + 1)

/-- Embedding of `extractFunction` from `parser.ts`: lines, DI defaults from
the parameters, and call sites from the body with the enclosing class name
derived from the qualified name (text before the first `.`). -/
def extractFunction (qualifiedName : String) (line endLine : Nat)
    (params : List (String × Option TsNode)) (body : TsNode)
    (isInstrumented : Bool) : ParsedFunction :=
  let className :=
    match charIdx '.' qualifiedName.data with
    | some i => some (String.mk (qualifiedName.data.take i))
    | none => none
  { qualifiedName := qualifiedName, line := line, endLine := some endLine,
    isInstrumented := isInstrumented,
    callSites := extractCallSites body className,
    diDefaults := extractDiDefaults params }

/-- Import records of one import declaration (`parseSource`'s import branch). -/
def importsOfDecl (spec : String) (dflt : Option String) (ns : Option String)
    (named : List (String × Option String)) : List ImportInfo :=
  (match dflt with
   | some n => [{ localName := n, importedName := "default",
                  moduleSpecifier := spec, isNamespace := false }]
   | none => []) ++
  (match ns with
   | some n => [{ localName := n, importedName := "*",
                  moduleSpecifier := spec, isNamespace := true }]
   | none => []) ++
  named.map (fun nm =>
    { localName := nm.1, importedName := nm.2.getD nm.1,
      moduleSpecifier := spec, isNamespace := false })

/-- Class-member pass of `parseSource`: methods and the constructor become
`ParsedFunction`s under `ClassName.member`; the constructor additionally
carries the (spec-modelled) field assignments, present only when non-empty. -/
def parseClassMembers (className : String) (members : List TsNode) : List ParsedFunction :=
  members.filterMap (fun m =>
    match m with
    | .methodDecl l e name params body =>
      some (extractFunction (className ++ "." ++ name) l e params body false)
    | .ctorDecl l e params body =>
      let fn := extractFunction (className ++ ".constructor") l e params body false
      let fas := extractFieldAssignments params body
      some { fn with fieldAssignments := if fas.isEmpty then none else some fas }
    | _ => none)

/-- Accumulator of `parseSource`'s main statement pass. -/
structure ParseAcc where
  functions : List ParsedFunction
  imports : List ImportInfo
  exportedNames : List (String × String)

/-- One statement of `parseSource`'s main pass. -/
def parseStmt (acc : ParseAcc) (stmt : TsNode) : ParseAcc :=
  match stmt with
  | .importDecl spec dflt ns named =>
    { acc with imports := acc.imports ++ importsOfDecl spec dflt ns named }
  | .funcDecl line endLine name exported isDefault params body =>
    let en1 := if exported then mapSet acc.exportedNames name name else acc.exportedNames
    let en2 := if exported && isDefault then mapSet en1 "default" name else en1
    { acc with exportedNames := en2,
               functions := acc.functions ++ [extractFunction name line endLine params body false] }
  | .classDecl name exported isDefault members =>
    let en1 := if exported then mapSet acc.exportedNames name name else acc.exportedNames
    let en2 := if exported && isDefault then mapSet en1 "default" name else en1
    { acc with exportedNames := en2,
               functions := acc.functions ++ parseClassMembers name members }
  | _ => acc

/-- Module-level call-site pass of `parseSource`: only top-level expression
statements are walked. -/
def moduleCallSites : List TsNode → List CallSite
  | [] => []
  | s :: rest =>
    (match s with
     | .exprStmt _ => extractCallSites s none
     | _ => []) ++ moduleCallSites rest

/-- Embedding of `parseSource` from `parser.ts` over the restricted AST:
main statement pass, then the `<module>` pseudo-function when any top-level
expression statement contributed a call site. -/
def parseSource (filePath : String) (file : SourceFile) : ParsedFile :=
  let acc := file.statements.foldl parseStmt
    { functions := [], imports := [], exportedNames := [] }
  let mcs := moduleCallSites file.statements
  let fns :=
    if mcs.isEmpty then acc.functions
    else acc.functions ++
      [{ qualifiedName := "<module>", line := 1, endLine := some file.totalLines,
         isInstrumented := false, callSites := mcs, diDefaults := [] }]
  { filePath := filePath, functions := fns, imports := acc.imports, reExports := [],
    exportedNames := acc.exportedNames, objectPropertyBindings := [],
    instanceBindings := [] }

mutual

/-- Specification-language predicate for the `<module>` claim: the syntactic
descendants of a node contain a call (a call expression or a construction),
with no scope restriction. -/
def hasCallDescendant : TsNode → Bool
  | .callExpr _ _ _ => true
  | .newExpr _ _ _ => true
  | .ident _ => false
  | .thisKeyword => false
  | .strLit _ => false
  | .propAccess obj _ => hasCallDescendant obj
  | .arrowFn params body => anyParamCall params || hasCallDescendant body
  | .funcExpr params body => anyParamCall params || hasCallDescendant body
  | .objectLit props => anyPropCall props
  | .assignExpr lhs rhs => hasCallDescendant lhs || hasCallDescendant rhs
  | .parenExpr inner => hasCallDescendant inner
  | .block stmts => anyNodeCall stmts
  | .exprStmt e => hasCallDescendant e
  | .returnStmt (some e) => hasCallDescendant e
  | .returnStmt none => false
  | .funcDecl _ _ _ _ _ params body => anyParamCall params || hasCallDescendant body
  | .classDecl _ _ _ members => anyNodeCall members
  | .ctorDecl _ _ params body => anyParamCall params || hasCallDescendant body
  | .methodDecl _ _ _ params body => anyParamCall params || hasCallDescendant body
  | .importDecl _ _ _ _ => false

/-- Descendant-call test over a node list. -/
def anyNodeCall : List TsNode → Bool
  | [] => false
  | n :: rest => hasCallDescendant n || anyNodeCall rest

/-- Descendant-call test over parameter defaults. -/
def anyParamCall : List (String × Option TsNode) → Bool
  | [] => false
  | (_, some d) :: rest => hasCallDescendant d || anyParamCall rest
  | (_, none) :: rest => anyParamCall rest

/-- Descendant-call test over object-literal property values; a shorthand
property has no value, only its name. -/
def anyPropCall : List ObjProp → Bool
  | [] => false
  | .propAssign _ v :: rest => hasCallDescendant v || anyPropCall rest
  | .shorthand _ :: rest => anyPropCall rest

end

/-! ## Resolver (`resolver.ts`)

The resolver's environment: parse results by absolute path (the lazily
filled cache, here a pure map), and oracles for the pieces delegated to the
TypeScript API and the file system (`ts.resolveModuleName`, `realpath`,
`path.resolve`/`path.dirname`, `fs.existsSync`, `fs.statSync().isFile()`).
The recursive strategies are fuel-indexed: an outer `none` models a
non-returning recursion at that depth, `some r` is the value returned,
where `r = none` is the program's `null`. -/

/-- Shape of a `ts.resolveModuleName` hit. -/
structure TsResolved where
  resolvedFileName : String
  isExternalLibraryImport : Bool
deriving Repr, DecidableEq

/-- Resolver environment: configuration, parsed files, and oracles. -/
structure REnv where
  repoRoot : String
  includeExternal : Bool
  files : List (String × ParsedFile)
  tsResolve : String → String → Option TsResolved
  realpath : String → Option String
  resolveRelative : String → String → String
  fsExists : String → Bool
  fsIsFile : String → Bool

/-- True when `needle` is a prefix of `hay` (character lists). -/
def listHasPre (needle hay : List Char) : Bool :=
  match needle, hay with
  | [], _ => true
  | _ :: _, [] => false
  | n :: ns, h :: hs => n = h && listHasPre ns hs

/-- True when `needle` occurs inside `hay` (character lists). -/
def listHasSub (needle hay : List Char) : Bool :=
  match hay with
  | [] => needle.isEmpty
  | _ :: hs => listHasPre needle hay || listHasSub needle hs

/-- JS `String.includes`. -/
def strIncludes (s needle : String) : Bool :=
  listHasSub needle.data s.data

/-- JS `String.startsWith`. -/
def strStarts (s pre : String) : Bool :=
  listHasPre pre.data s.data

/-- JS `String.slice(n)`: drop the first `n` characters. -/
def strDrop (s : String) (n : Nat) : String :=
  String.mk (s.data.drop n)

/-- JS `String.length` (character count). -/
def strLen (s : String) : Nat :=
  s.data.length

/-- Embedding of `Resolver.resolveModule`: primary resolution through the
TypeScript API (accepting in-project hits, and external hits whose real path
is a workspace link inside the repository outside any `node_modules`), then
the manual relative fallback over the extension candidates. -/
def resolveModule (env : REnv) (specifier fromFile : String) : Option String :=
  let primary : Option String :=
    match env.tsResolve specifier fromFile with
    | none => none
    | some res =>
      if !res.isExternalLibraryImport then some res.resolvedFileName
      else
        match env.realpath res.resolvedFileName with
        | none => none
        | some realPath =>
          if strStarts realPath env.repoRoot &&
              !(strIncludes (strDrop realPath (strLen env.repoRoot)) "node_modules") then
            some realPath
          else none
  match primary with
  | some p => some p
  | none =>
    if strStarts specifier "." then
      let basePath := env.resolveRelative fromFile specifier
      match [".ts", ".tsx", ".js", ".jsx", "/index.ts", "/index.tsx"].find?
          (fun ext => env.fsExists (basePath ++ ext)) with
      | some ext => some (basePath ++ ext)
      | none =>
        if env.fsExists basePath && env.fsIsFile basePath then some basePath else none
    else none

/-- Resolution triple built from a located function, as the resolver's
strategies construct it. -/
def resultOf (filePath qualifiedName : String) (fn : ParsedFunction) (kind : EdgeKind) :
    Resolution :=
  let id := makeFunctionId filePath qualifiedName
  { targetId := id,
    targetNode :=
      { id := id, filePath := filePath, qualifiedName := qualifiedName,
        line := fn.line, endLine := fn.endLine, isInstrumented := fn.isInstrumented,
        description := fn.description, signature := fn.signature },
    kind := kind }

/-- Embedding of `Resolver.makeExternalResult`. -/
def makeExternalResult (moduleSpecifier exportedName : String) : Resolution :=
  let filePath := "<external>::" ++ moduleSpecifier
  let id := makeFunctionId filePath exportedName
  { targetId := id,
    targetNode :=
      { id := id, filePath := filePath, qualifiedName := exportedName,
        line := 0, isInstrumented := false, isExternal := true },
    kind := .external }

/-- Embedding of `Resolver.findExport`: follow matching re-exports whose
module resolves (cycle-guarded by the visited set), else the local export
map, with the redundant re-check for `default` as in the source. -/
def findExport (env : REnv) : Nat → String → String → List String →
    Option (Option (String × ParsedFunction))
  | 0, _, _, _ => none
  | fuel + 1, filePath, exportedName, visited =>
    let key := filePath ++ "::" ++ exportedName
    if visited.contains key then some none
    else
      let visited' := visited ++ [key]
      match mapGet? env.files filePath with
      | none => some none
      | some file =>
        match file.reExports.find? (fun re =>
            re.exportedName = exportedName &&
            (resolveModule env re.moduleSpecifier filePath).isSome) with
        | some re =>
          match resolveModule env re.moduleSpecifier filePath with
          | some targetPath => findExport env fuel targetPath re.importedName visited'
          | none => some none
        | none =>
          let localHit : Option (String × ParsedFunction) :=
            match mapGet? file.exportedNames exportedName with
            | some localName =>
              match file.functions.find? (fun f => f.qualifiedName = localName) with
              | some fn => some (filePath, fn)
              | none => none
            | none => none
          match localHit with
          | some r => some (some r)
          | none =>
            if exportedName = "default" then
              match mapGet? file.exportedNames "default" with
              | some defaultLocal =>
                match file.functions.find? (fun f => f.qualifiedName = defaultLocal) with
                | some fn => some (some (filePath, fn))
                | none => some none
              | none => some none
            else some none

/-- Embedding of `Resolver.findClassMethod`: follow matching re-exports,
then look for `localName.methodName`, falling back to the object-property
bindings. -/
def findClassMethod (env : REnv) : Nat → String → String → String → List String →
    Option (Option (String × ParsedFunction))
  | 0, _, _, _, _ => none
  | fuel + 1, filePath, exportedName, methodName, visited =>
    let key := filePath ++ "::" ++ exportedName ++ "." ++ methodName
    if visited.contains key then some none
    else
      let visited' := visited ++ [key]
      match mapGet? env.files filePath with
      | none => some none
      | some file =>
        match file.reExports.find? (fun re =>
            re.exportedName = exportedName &&
            (resolveModule env re.moduleSpecifier filePath).isSome) with
        | some re =>
          match resolveModule env re.moduleSpecifier filePath with
          | some targetPath => findClassMethod env fuel targetPath re.importedName methodName visited'
          | none => some none
        | none =>
          let localName := (mapGet? file.exportedNames exportedName).getD exportedName
          let qualifiedName := localName ++ "." ++ methodName
          match file.functions.find? (fun f => f.qualifiedName = qualifiedName) with
          | some fn => some (some (filePath, fn))
          | none =>
            match mapGet? file.objectPropertyBindings qualifiedName with
            | some binding =>
              if binding ≠ qualifiedName then
                match file.functions.find? (fun f => f.qualifiedName = binding) with
                | some boundFn => some (some (filePath, boundFn))
                | none => some none
              else some none
            | none => some none

/-- The DI-default loop of `resolveSimpleCall`: try each mapping whose
`localRef` differs from the callee name, relabelling a hit as `di-default`;
`recurse` is the recursive named-call resolution at the remaining fuel. -/
def simpleDiLoop (recurse : String → Option (Option Resolution)) (calleeName : String) :
    List DiDefaultMapping → Option (Option Resolution)
  | [] => some none
  | di :: rest =>
    match di.localRef with
    | some ref =>
      if ref ≠ calleeName then
        match recurse ref with
        | none => none
        | some (some r) => some (some { r with kind := .diDefault })
        | some none => simpleDiLoop recurse calleeName rest
      else simpleDiLoop recurse calleeName rest
    | none => simpleDiLoop recurse calleeName rest

/-- Embedding of `Resolver.resolveSimpleCall`: local function, then import,
then the DI-default loop that recurses on a `localRef` different from the
callee name. -/
def resolveSimpleCall (env : REnv) : Nat → String → ParsedFile → ParsedFunction →
    Option (Option Resolution)
  | 0, _, _, _ => none
  | fuel + 1, calleeName, callerFile, callerFunction =>
    match callerFile.functions.find? (fun f => f.qualifiedName = calleeName) with
    | some localFn => some (some (resultOf callerFile.filePath calleeName localFn .direct))
    | none =>
      let step2 : Option (Option Resolution) :=
        match callerFile.imports.find? (fun i => i.localName = calleeName) with
        | some imp =>
          if imp.isNamespace then some none
          else
            match resolveModule env imp.moduleSpecifier callerFile.filePath with
            | some targetPath =>
              match findExport env fuel targetPath imp.importedName [] with
              | none => none
              | some (some (fp, fn)) =>
                some (some (resultOf fp fn.qualifiedName fn .direct))
              | some none => some none
            | none =>
              if env.includeExternal && !(strStarts imp.moduleSpecifier ".") &&
                  !(strStarts imp.moduleSpecifier "/") then
                some (some (makeExternalResult imp.moduleSpecifier imp.importedName))
              else some none
        | none => some none
      match step2 with
      | none => none
      | some (some r) => some (some r)
      | some none =>
        simpleDiLoop (fun ref => resolveSimpleCall env fuel ref callerFile callerFunction)
          calleeName callerFunction.diDefaults

/-- Embedding of `Resolver.resolvePropertyCallViaImport`: follow the import
of the object name, try a class method, then a plain export, else the
external upgrade. -/
def resolvePropertyCallViaImport (env : REnv) (fuel : Nat)
    (objectName methodName : String) (callerFile : ParsedFile) :
    Option (Option Resolution) :=
  match callerFile.imports.find? (fun i => i.localName = objectName) with
  | none => some none
  | some imp =>
    match resolveModule env imp.moduleSpecifier callerFile.filePath with
    | some targetPath =>
      match findClassMethod env fuel targetPath imp.importedName methodName [] with
      | none => none
      | some (some (fp, fn)) => some (some (resultOf fp fn.qualifiedName fn .staticMethod))
      | some none =>
        match findExport env fuel targetPath methodName [] with
        | none => none
        | some (some (fp, fn)) => some (some (resultOf fp fn.qualifiedName fn .direct))
        | some none => some none
    | none =>
      if env.includeExternal && !(strStarts imp.moduleSpecifier ".") &&
          !(strStarts imp.moduleSpecifier "/") then
        some (some (makeExternalResult imp.moduleSpecifier
          (imp.importedName ++ "." ++ methodName)))
      else some none

/-- The DI-default loop of `resolvePropertyCall` (strategy 1): mappings whose
`(paramName, propName)` matches the call's `(objectName, propertyName)`. -/
def propDiLoop (env : REnv) (fuel : Nat) (objectName propertyName : String)
    (callerFile : ParsedFile) (callerFunction : ParsedFunction) :
    List DiDefaultMapping → Option (Option Resolution)
  | [] => some none
  | di :: rest =>
    if di.paramName = objectName ∧ di.propName = propertyName then
      let viaRef : Option (Option Resolution) :=
        match di.objectRef, di.methodRef with
        | some objectRef, some methodRef =>
          match resolvePropertyCallViaImport env fuel objectRef methodRef callerFile with
          | none => none
          | some (some r) => some (some { r with kind := .diDefault })
          | some none => some none
        | _, _ => some none
      match viaRef with
      | none => none
      | some (some r) => some (some r)
      | some none =>
        match di.localRef with
        | some localRef =>
          match resolveSimpleCall env fuel localRef callerFile callerFunction with
          | none => none
          | some (some r) => some (some { r with kind := .diDefault })
          | some none => propDiLoop env fuel objectName propertyName callerFile callerFunction rest
        | none => propDiLoop env fuel objectName propertyName callerFile callerFunction rest
    else propDiLoop env fuel objectName propertyName callerFile callerFunction rest

/-- Strategy 3b of `resolvePropertyCall`: resolve through the enclosing
class's constructor field assignments and the constructor's DI defaults. -/
def ctorFieldLookup (env : REnv) (fuel : Nat) (propertyName : String)
    (callerFile : ParsedFile) (callerFunction : ParsedFunction)
    (ctor : ParsedFunction) : Option (Option Resolution) :=
  match ctor.fieldAssignments with
  | none => some none
  | some fas =>
    match fas.find? (fun a => a.fieldName = propertyName) with
    | none => some none
    | some fa =>
      let viaDi : Option (Option Resolution) :=
        match fa.paramName, fa.propName with
        | some faParam, some faProp =>
          match ctor.diDefaults.find? (fun d =>
              d.paramName = faParam && d.propName = faProp) with
          | none => some none
          | some di =>
            let viaRef : Option (Option Resolution) :=
              match di.objectRef, di.methodRef with
              | some objectRef, some methodRef =>
                match resolvePropertyCallViaImport env fuel objectRef methodRef callerFile with
                | none => none
                | some (some r) => some (some { r with kind := .diDefault })
                | some none => some none
              | _, _ => some none
            match viaRef with
            | none => none
            | some (some r) => some (some r)
            | some none =>
              match di.localRef with
              | some localRef =>
                match resolveSimpleCall env fuel localRef callerFile callerFunction with
                | none => none
                | some (some r) => some (some { r with kind := .diDefault })
                | some none => some none
              | none => some none
        | _, _ => some none
      match viaDi with
      | none => none
      | some (some r) => some (some r)
      | some none =>
        match fa.localRef with
        | some localRef =>
          match resolveSimpleCall env fuel localRef callerFile callerFunction with
          | none => none
          | some (some r) => some (some { r with kind := .diDefault })
          | some none => some none
        | none => some none

/-- Embedding of `Resolver.resolvePropertyCall`: DI defaults, imported
namespace or class, instance bindings, local class, constructor field
assignments, object-property bindings — in the source's order. -/
def resolvePropertyCall (env : REnv) (fuel : Nat) (objectName propertyName : String)
    (callerFile : ParsedFile) (callerFunction : ParsedFunction) :
    Option (Option Resolution) :=
  match propDiLoop env fuel objectName propertyName callerFile callerFunction
      callerFunction.diDefaults with
  | none => none
  | some (some r) => some (some r)
  | some none =>
    let step2 : Option (Option Resolution) :=
      match callerFile.imports.find? (fun i => i.localName = objectName) with
      | none => some none
      | some imp =>
        if imp.isNamespace then
          match resolveModule env imp.moduleSpecifier callerFile.filePath with
          | some targetPath =>
            match findExport env fuel targetPath propertyName [] with
            | none => none
            | some (some (fp, fn)) => some (some (resultOf fp fn.qualifiedName fn .direct))
            | some none => some none
          | none =>
            if env.includeExternal && !(strStarts imp.moduleSpecifier ".") &&
                !(strStarts imp.moduleSpecifier "/") then
              some (some (makeExternalResult imp.moduleSpecifier propertyName))
            else some none
        else
          match resolveModule env imp.moduleSpecifier callerFile.filePath with
          | some targetPath =>
            match findClassMethod env fuel targetPath imp.importedName propertyName [] with
            | none => none
            | some (some (fp, fn)) =>
              some (some (resultOf fp fn.qualifiedName fn .staticMethod))
            | some none =>
              match findExport env fuel targetPath propertyName [] with
              | none => none
              | some (some (fp, fn)) => some (some (resultOf fp fn.qualifiedName fn .direct))
              | some none => some none
          | none =>
            if env.includeExternal && !(strStarts imp.moduleSpecifier ".") &&
                !(strStarts imp.moduleSpecifier "/") then
              some (some (makeExternalResult imp.moduleSpecifier
                (imp.importedName ++ "." ++ propertyName)))
            else some none
    match step2 with
    | none => none
    | some (some r) => some (some r)
    | some none =>
      let step2b : Option (Option Resolution) :=
        match mapGet? callerFile.instanceBindings objectName with
        | none => some none
        | some className =>
          match resolvePropertyCallViaImport env fuel className propertyName callerFile with
          | none => none
          | some (some r) => some (some { r with kind := .instanceMethod })
          | some none =>
            let localQN := className ++ "." ++ propertyName
            match callerFile.functions.find? (fun f => f.qualifiedName = localQN) with
            | some localMeth =>
              some (some (resultOf callerFile.filePath localQN localMeth .instanceMethod))
            | none => some none
      match step2b with
      | none => none
      | some (some r) => some (some r)
      | some none =>
        let qualifiedName := objectName ++ "." ++ propertyName
        match callerFile.functions.find? (fun f => f.qualifiedName = qualifiedName) with
        | some localMethod =>
          some (some (resultOf callerFile.filePath qualifiedName localMethod .staticMethod))
        | none =>
          let step3b : Option (Option Resolution) :=
            match callerFile.functions.find? (fun f =>
                f.qualifiedName = objectName ++ ".constructor") with
            | some ctor => ctorFieldLookup env fuel propertyName callerFile callerFunction ctor
            | none => some none
          match step3b with
          | none => none
          | some (some r) => some (some r)
          | some none =>
            match mapGet? callerFile.objectPropertyBindings qualifiedName with
            | some binding =>
              if binding ≠ qualifiedName then
                match callerFile.functions.find? (fun f => f.qualifiedName = binding) with
                | some boundFn =>
                  some (some (resultOf callerFile.filePath binding boundFn .staticMethod))
                | none => some none
              else some none
            | none => some none

/-- Embedding of `Resolver.resolveCallSite`: dispatch on the call-site shape. -/
def resolveCallSite (env : REnv) (fuel : Nat) (callSite : CallSite)
    (callerFile : ParsedFile) (callerFunction : ParsedFunction) :
    Option (Option Resolution) :=
  match callSite.calleeName with
  | some calleeName => resolveSimpleCall env fuel calleeName callerFile callerFunction
  | none =>
    match callSite.objectName, callSite.propertyName with
    | some objectName, some propertyName =>
      resolvePropertyCall env fuel objectName propertyName callerFile callerFunction
    | _, _ => some none

/-- Embedding of `Resolver.resolveQualifiedName`: direct function lookup,
then the object-property-binding fallback. -/
def resolveQualifiedName (env : REnv) (filePath qualifiedName : String) :
    Option (String × ParsedFunction) :=
  match mapGet? env.files filePath with
  | none => none
  | some file =>
    match file.functions.find? (fun f => f.qualifiedName = qualifiedName) with
    | some directFn => some (qualifiedName, directFn)
    | none =>
      match mapGet? file.objectPropertyBindings qualifiedName with
      | some binding =>
        match file.functions.find? (fun f => f.qualifiedName = binding) with
        | some boundFn => some (binding, boundFn)
        | none => none
      | none => none

/-- The `ResolverM` interface of a concrete environment at a given fuel;
a fuel-exhausted strategy is reported as unresolved (used only on concrete
runs whose fuel demonstrably suffices). -/
def mkResolver (env : REnv) (fuel : Nat) : ResolverM :=
  { getFile := fun p => mapGet? env.files p,
    resolveQualifiedName := resolveQualifiedName env,
    resolveCallSite := fun cs f fn => (resolveCallSite env fuel cs f fn).getD none }

/-! ## Graphviz renderer (`dotRenderer.ts`) -/

/-- One character of `escapeLabel`: double backslashes, escape quotes,
rewrite newlines. -/
def escChar (c : Char) : List Char :=
  if c = '\\' then ['\\', '\\']
  else if c = '"' then ['\\', '"']
  else if c = '\n' then ['\\', 'n']
  else [c]

/-- Embedding of `escapeLabel` from `dotRenderer.ts`. -/
def escapeLabel (s : String) : String :=
  String.mk (s.data.map escChar).flatten

/-- Embedding of `nodeIdToDot`: the id as a quoted DOT string. -/
def nodeIdToDot (id : String) : String :=
  "\"" ++ escapeLabel id ++ "\""

/-- Embedding of `edgeStyle` from `dotRenderer.ts`. The switch has cases for
`direct`, `static-method`, `di-default`, `instrument-wrapper` and
`re-export` only; for `instance-method` and `external` control falls off the
end of the function and JavaScript yields `undefined`, modelled as `none`. -/
def edgeStyle : EdgeKind → Option String
  | .direct => some ""
  | .staticMethod => some " [color=\"#6fa8dc\"]"
  | .diDefault => some " [style=\"dashed\" color=\"#b48ead\" label=\"DI\"]"
  | .instrumentWrapper => some " [style=\"dotted\" color=\"#888888\"]"
  | .reExport => some " [style=\"dotted\" color=\"#ebcb8b\" label=\"re-export\"]"
  | .instanceMethod => none
  | .external => none

/-- The edge line `renderDot` pushes: a template literal, so an `undefined`
style is stringified as the text `undefined`. -/
def edgeLine (e : CallEdge) : String :=
  "  " ++ nodeIdToDot e.callerId ++ " -> " ++ nodeIdToDot e.calleeId ++
    (match edgeStyle e.kind with
     | some s => s
     | none => "undefined") ++ ";"

/-! ## Layout cluster ordering (`layout-utils.ts`, `assignCoordinates` Step 2) -/

/-- The backward scan of `assignCoordinates` that picks the insertion point
of a newly appeared file: walk indices `i, i-1, …, 0` of the scan order and
insert right after the first entry already present in the cluster order. -/
def findInsertAt (scanOrder clusterOrder : List String) : Nat → Nat
  | 0 => clusterOrder.length
  | i + 1 =>
    let beforeFp := scanOrder.getD i ""
    match clusterOrder.findIdx? (fun x => x = beforeFp) with
    | some keptIdx => keptIdx + 1
    | none => findInsertAt scanOrder clusterOrder i

/-- JS `Array.splice(i, 0, x)`: insert at an index (clamped to the length). -/
def spliceInsert (l : List String) (i : Nat) (x : String) : List String :=
  l.take i ++ [x] ++ l.drop i

/-- Insertion loop of `assignCoordinates` Step 2 over the newly appeared
files. -/
def insertNewClusters (scanOrder : List String) : List String → List String → List String
  | clusterOrder, [] => clusterOrder
  | clusterOrder, fp :: rest =>
    let scanIdx := (scanOrder.findIdx? (fun x => x = fp)).getD 0
    let insertAt := findInsertAt scanOrder clusterOrder scanIdx
    insertNewClusters scanOrder (spliceInsert clusterOrder insertAt fp) rest

/-- Embedding of the cluster-order derivation in `assignCoordinates`
(Step 2): keep the previous ordering restricted to the files that still
appear, then insert the newly appeared files near their scan position; with
no (or an empty) previous ordering the scan order is used as is. -/
def deriveClusterOrder (previousClusterOrder scanOrder : List String) : List String :=
  if 0 < previousClusterOrder.length then
    let kept := previousClusterOrder.filter (fun fp => scanOrder.contains fp)
    let newClusters := scanOrder.filter (fun fp => !kept.contains fp)
    insertNewClusters scanOrder kept newClusters
  else scanOrder

/-! ## Properties under verification -/

/-- Graph soundness: every edge's endpoints are nodes of the graph, no
self-edges, and no two edges share the same `(caller, callee)` pair. -/
def SoundGraph (g : CallGraph) : Prop :=
  (∀ e ∈ g.edges, mapHas g.nodes e.callerId = true ∧ mapHas g.nodes e.calleeId = true) ∧
  (∀ e ∈ g.edges, e.callerId ≠ e.calleeId) ∧
  g.edges.Pairwise (fun e1 e2 => ¬(e1.callerId = e2.callerId ∧ e1.calleeId = e2.calleeId))

/-- Adjacency coherence of a graph built through `addEdge`: the forward and
reverse maps hold exactly the edges with the matching endpoint. -/
def WfAdj (g : CallGraph) : Prop :=
  (∀ x e, e ∈ (mapGet? g.forwardEdges x).getD [] ↔ e ∈ g.edges ∧ e.callerId = x) ∧
  (∀ x e, e ∈ (mapGet? g.reverseEdges x).getD [] ↔ e ∈ g.edges ∧ e.calleeId = x)

/-- One call edge of the graph, as a step relation on ids. -/
def StepRel (g : CallGraph) (x y : String) : Prop :=
  ∃ e ∈ g.edges, e.callerId = x ∧ e.calleeId = y

/-- Reachability along call edges (reflexive-transitive closure). -/
def Reaches (g : CallGraph) : String → String → Prop :=
  Relation.ReflTransGen (StepRel g)

/-- A resolver oracle is id-coherent when every resolution's node is keyed
by the resolution's target id (the data-model invariant of `FunctionNode`). -/
def ROk (r : ResolverM) : Prop :=
  ∀ cs f fn res, r.resolveCallSite cs f fn = some res → res.targetNode.id = res.targetId

/-- Every function served by the resolver has at most `c` call sites. -/
def CallSitesBounded (r : ResolverM) (c : Nat) : Prop :=
  ∀ p file, r.getFile p = some file → ∀ fn ∈ file.functions, fn.callSites.length ≤ c

/-- The element `a` occurs before the element `b` in the list. -/
def Precedes (a b : String) (l : List String) : Prop :=
  ∃ l1 l2 l3, l = l1 ++ a :: (l2 ++ b :: l3)

/-- Name introduced by a top-level function declaration (for the `<module>`
uniqueness side condition: TypeScript identifiers can never be `<module>`). -/
def declaredFuncName : TsNode → Option String
  | .funcDecl _ _ name _ _ _ _ => some name
  | _ => none

/-! ## Concrete scenarios -/

/-- The spec's constructor-DI scenario, `streamText.ts`: one exported
function `streamText`. -/
def streamTextAst : SourceFile :=
  { statements :=
      [ .funcDecl 1 3 "streamText" true false [("prompt", none)]
          (.block [.returnStmt (some (.strLit "streamed"))]) ],
    totalLines := 3 }

/-- The spec's constructor-DI scenario, `agent.ts`, exactly as the scenario
writes it: class `Agent` whose constructor takes the shorthand default
`deps = { streamText }`, assigns `this._streamText = deps.streamText`, and
whose method `run` calls `this._streamText("hello")`. -/
def agentAst : SourceFile :=
  { statements :=
      [ .importDecl "./streamText" none none [("streamText", none)],
        .classDecl "Agent" true false
          [ .ctorDecl 6 8 [("deps", some (.objectLit [.shorthand "streamText"]))]
              (.block
                [ .exprStmt (.assignExpr (.propAccess .thisKeyword "_streamText")
                    (.propAccess (.ident "deps") "streamText")) ]),
            .methodDecl 10 12 "run" []
              (.block
                [ .returnStmt (some (.callExpr 11
                    (.propAccess .thisKeyword "_streamText") [.strLit "hello"])) ]) ] ],
    totalLines := 13 }

/-- The same `agent.ts` with the constructor default spelled as the explicit
property assignment `deps = { streamText: streamText }` instead of the
scenario's shorthand. -/
def agentAstExplicit : SourceFile :=
  { statements :=
      [ .importDecl "./streamText" none none [("streamText", none)],
        .classDecl "Agent" true false
          [ .ctorDecl 6 8
              [("deps", some (.objectLit [.propAssign "streamText" (.ident "streamText")]))]
              (.block
                [ .exprStmt (.assignExpr (.propAccess .thisKeyword "_streamText")
                    (.propAccess (.ident "deps") "streamText")) ]),
            .methodDecl 10 12 "run" []
              (.block
                [ .returnStmt (some (.callExpr 11
                    (.propAccess .thisKeyword "_streamText") [.strLit "hello"])) ]) ] ],
    totalLines := 13 }

/-- Parse result of the scenario's `streamText.ts` (as a literal; the
equality with `parseSource` is proved below). -/
def streamTextParsed : ParsedFile :=
  { filePath := "/repo/streamText.ts",
    functions :=
      [{ qualifiedName := "streamText", line := 1, endLine := some 3,
         isInstrumented := false, callSites := [], diDefaults := [] }],
    imports := [], reExports := [],
    exportedNames := [("streamText", "streamText")],
    objectPropertyBindings := [], instanceBindings := [] }

/-- Parse result of the scenario's `agent.ts` (as a literal; the equality
with `parseSource` is proved below). The shorthand property is skipped by
the DI-default extraction, so the constructor records no `DiDefaultMapping`;
the (spec-modelled) field assignment is recorded. -/
def agentParsed : ParsedFile :=
  { filePath := "/repo/agent.ts",
    functions :=
      [{ qualifiedName := "Agent.constructor", line := 6, endLine := some 8,
         isInstrumented := false, callSites := [],
         diDefaults := [],
         fieldAssignments :=
           some [{ fieldName := "_streamText", paramName := some "deps",
                   propName := some "streamText" }] },
       { qualifiedName := "Agent.run", line := 10, endLine := some 12,
         isInstrumented := false,
         callSites :=
           [{ objectName := some "Agent", propertyName := some "_streamText", line := 11 }],
         diDefaults := [] }],
    imports :=
      [{ localName := "streamText", importedName := "streamText",
         moduleSpecifier := "./streamText", isNamespace := false }],
    reExports := [], exportedNames := [("Agent", "Agent")],
    objectPropertyBindings := [], instanceBindings := [] }

/-- Parse result of the explicit spelling `agentAstExplicit`: identical
except the constructor carries the `DiDefaultMapping`. -/
def agentParsedExplicit : ParsedFile :=
  { agentParsed with
    functions :=
      [{ qualifiedName := "Agent.constructor", line := 6, endLine := some 8,
         isInstrumented := false, callSites := [],
         diDefaults :=
           [{ paramName := "deps", propName := "streamText", localRef := some "streamText" }],
         fieldAssignments :=
           some [{ fieldName := "_streamText", paramName := some "deps",
                   propName := some "streamText" }] },
       { qualifiedName := "Agent.run", line := 10, endLine := some 12,
         isInstrumented := false,
         callSites :=
           [{ objectName := some "Agent", propertyName := some "_streamText", line := 11 }],
         diDefaults := [] }] }

/-- Resolver environment of the constructor-DI scenario: the two parsed
files, no TypeScript-API resolution (the relative fallback serves
`./streamText`), and a file system containing `streamText.ts`. -/
def diEnv : REnv :=
  { repoRoot := "/repo", includeExternal := false,
    files := [("/repo/agent.ts", agentParsed), ("/repo/streamText.ts", streamTextParsed)],
    tsResolve := fun _ _ => none,
    realpath := fun _ => none,
    resolveRelative := fun fromFile spec =>
      if fromFile = "/repo/agent.ts" && spec = "./streamText" then "/repo/streamText" else "",
    fsExists := fun p => p = "/repo/streamText.ts",
    fsIsFile := fun p => p = "/repo/streamText.ts" }

/-- The same environment over the explicit spelling's parse results. -/
def diEnvExplicit : REnv :=
  { diEnv with
    files := [("/repo/agent.ts", agentParsedExplicit), ("/repo/streamText.ts", streamTextParsed)] }

/-- A resolver environment with no files and inert oracles. -/
def emptyREnv : REnv :=
  { repoRoot := "", includeExternal := false, files := [],
    tsResolve := fun _ _ => none, realpath := fun _ => none,
    resolveRelative := fun _ _ => "", fsExists := fun _ => false,
    fsIsFile := fun _ => false }

/-- Node-cap scenario: a source function with two resolvable call sites. -/
def capMainFn : ParsedFunction :=
  { qualifiedName := "main", line := 1, isInstrumented := false,
    callSites := [{ calleeName := some "x", line := 2 }, { calleeName := some "y", line := 3 }],
    diDefaults := [] }

/-- Node-cap scenario: the caller file. -/
def capFile : ParsedFile :=
  { filePath := "/a.ts", functions := [capMainFn], imports := [], reExports := [],
    exportedNames := [], objectPropertyBindings := [], instanceBindings := [] }

/-- Node-cap scenario: the node of a local function. -/
def capNode (n : String) : FunctionNode :=
  { id := makeFunctionId "/a.ts" n, filePath := "/a.ts", qualifiedName := n,
    line := 1, isInstrumented := false }

/-- Node-cap scenario: a resolver oracle serving `/a.ts` and resolving the
two call sites to two distinct targets. -/
def capResolver : ResolverM :=
  { getFile := fun p => if p = "/a.ts" then some capFile else none,
    resolveQualifiedName := fun _ qn => if qn = "main" then some ("main", capMainFn) else none,
    resolveCallSite := fun cs _ _ =>
      match cs.calleeName with
      | some n =>
        if n = "x" || n = "y" then
          some { targetId := makeFunctionId "/a.ts" n, targetNode := capNode n, kind := .direct }
        else none
      | none => none }

/-- Divergence scenario for the named-call DI strategy: a function with two
DI-default mappings whose `localRef`s (`a` and `b`) resolve neither locally
nor through imports. -/
def diLoopFn : ParsedFunction :=
  { qualifiedName := "f", line := 1, isInstrumented := false,
    callSites := [{ calleeName := some "a", line := 2 }],
    diDefaults :=
      [{ paramName := "deps", propName := "x", localRef := some "a" },
       { paramName := "deps", propName := "y", localRef := some "b" }] }

/-- Divergence scenario: the caller file (no function named `a` or `b`, no
imports). -/
def diLoopFile : ParsedFile :=
  { filePath := "/di.ts", functions := [diLoopFn], imports := [], reExports := [],
    exportedNames := [], objectPropertyBindings := [], instanceBindings := [] }

/-- Module-resolution scenario: a file system in which `./d` names a
directory that contains only `index.js`. -/
def dirEnv : REnv :=
  { repoRoot := "/r", includeExternal := false, files := [],
    tsResolve := fun _ _ => none, realpath := fun _ => none,
    resolveRelative := fun fromFile spec =>
      if fromFile = "/r/a.ts" && spec = "./d" then "/r/d" else "",
    fsExists := fun p => p = "/r/d" || p = "/r/d/index.js",
    fsIsFile := fun p => p = "/r/d/index.js" }

/-- Statement-kind test used by the `<module>` pass (`ts.isExpressionStatement`). -/
def isExprStmt : TsNode → Bool
  | .exprStmt _ => true
  | _ => false

/-- Node-map keying invariant of the data model: every node is stored under
its own id. -/
def WellKeyed (g : CallGraph) : Prop :=
  ∀ kv ∈ g.nodes, kv.1 = kv.2.id

/-- A file whose single top-level expression statement is an arrow function
(`() => foo();`): its syntactic descendants contain a call, but the
call-site extraction does not descend into the arrow. -/
def arrowStmtAst : SourceFile :=
  { statements := [.exprStmt (.arrowFn [] (.callExpr 1 (.ident "foo") []))],
    totalLines := 1 }

/-- A file whose single top-level expression statement performs a call. -/
def bootAst : SourceFile :=
  { statements := [.exprStmt (.callExpr 1 (.ident "boot") [])],
    totalLines := 1 }

/-- Module-resolution scenario: the directory `./d` contains `index.ts`. -/
def dirTsEnv : REnv :=
  { repoRoot := "/r", includeExternal := false, files := [],
    tsResolve := fun _ _ => none, realpath := fun _ => none,
    resolveRelative := fun fromFile spec =>
      if fromFile = "/r/a.ts" && spec = "./d" then "/r/d" else "",
    fsExists := fun p => p = "/r/d" || p = "/r/d/index.ts",
    fsIsFile := fun p => p = "/r/d/index.ts" }

/-- Witness node of the small chain graph. -/
def swNode (n : String) : FunctionNode :=
  { id := n, filePath := "f.ts", qualifiedName := n, line := 1, isInstrumented := false }

/-- Witness edge of the small chain graph. -/
def swEdge (a b : String) : CallEdge :=
  { callerId := a, calleeId := b, kind := .direct, callLine := 1 }

/-- A small chain graph `A → B → C` built through `addNode`/`addEdge`. -/
def swGraph : CallGraph :=
  addEdge
    (addEdge
      (addNode (addNode (addNode createEmptyGraph (swNode "A")) (swNode "B")) (swNode "C"))
      (swEdge "A" "B"))
    (swEdge "B" "C")

/-! # Theorems -/

/-! ## Shared map and list lemmas -/

theorem mapGet?_append {α : Type} (m m' : List (String × α)) (k : String) :
    mapGet? (m ++ m') k = ((mapGet? m k).map some).getD (mapGet? m' k) := by
  induction m with
  | nil => simp [mapGet?]
  | cons kv rest ih =>
    obtain ⟨k', v⟩ := kv
    by_cases h : k' = k <;> simp [mapGet?, h, ih]

theorem mapGet?_mapSet {α : Type} (m : List (String × α)) (k x : String) (v : α) :
    mapGet? (mapSet m k v) x = if k = x then some v else mapGet? m x := by
  induction m with
  | nil =>
    by_cases h : k = x <;> simp [mapSet, mapGet?, h]
  | cons kv rest ih =>
    obtain ⟨k', v'⟩ := kv
    by_cases hk : k' = k
    · subst hk
      by_cases hx : k' = x <;> simp [mapSet, mapGet?, hx]
    · by_cases hx : k' = x
      · subst hx
        have : ¬ k = k' := fun h => hk h.symm
        simp [mapSet, mapGet?, hk, this]
      · simp [mapSet, mapGet?, hk, hx, ih]

theorem mapGet?_mem {α : Type} {m : List (String × α)} {k : String} {v : α}
    (h : mapGet? m k = some v) : (k, v) ∈ m := by
  induction m with
  | nil => simp [mapGet?] at h
  | cons kv rest ih =>
    obtain ⟨k', v'⟩ := kv
    by_cases hk : k' = k
    · subst hk
      simp [mapGet?] at h
      simp [h]
    · simp [mapGet?, hk] at h
      exact List.mem_cons_of_mem _ (ih h)

theorem contains_iff_mem (l : List String) (a : String) :
    l.contains a = true ↔ a ∈ l := by
  induction l with
  | nil => simp [List.contains]
  | cons b rest ih =>
    show (a == b || rest.contains a) = true ↔ _
    simp only [Bool.or_eq_true, beq_iff_eq, ih, List.mem_cons]

/-! ## C6 helpers: none -/

/-- C6: the Graphviz edge-style switch covers only `direct`, `static-method`,
`di-default`, `instrument-wrapper` and `re-export`; for `instance-method` and
`external` it falls off the end and yields `undefined`, which the template
literal of `renderDot` stringifies into the malformed edge line
`"…" -> "…"undefined;` — refuting the claim that every kind of the closed
set gets a well-formed style string. -/
theorem c6_edgeStyle_undefined_for_instance_and_external :
    edgeStyle .direct = some "" ∧
    edgeStyle .staticMethod = some " [color=\"#6fa8dc\"]" ∧
    edgeStyle .diDefault = some " [style=\"dashed\" color=\"#b48ead\" label=\"DI\"]" ∧
    edgeStyle .instrumentWrapper = some " [style=\"dotted\" color=\"#888888\"]" ∧
    edgeStyle .reExport = some " [style=\"dotted\" color=\"#ebcb8b\" label=\"re-export\"]" ∧
    edgeStyle .instanceMethod = none ∧
    edgeStyle .external = none ∧
    edgeLine { callerId := "a.ts::f", calleeId := "b.ts::g", kind := .external, callLine := 7 } =
      "  \"a.ts::f\" -> \"b.ts::g\"undefined;" := by
  refine ⟨rfl, rfl, rfl, rfl, rfl, rfl, rfl, ?_⟩
  decide

/-! ## C5: module-resolution fallback -/

/-- C5 counterexample: in a file system where the relative specifier `./d`
names a directory containing only `index.js`, the fallback resolves to
nothing — the claim says it resolves to that index file. -/
theorem c5_counterexample :
    dirEnv.fsExists "/r/d/index.js" = true ∧
    dirEnv.tsResolve "./d" "/r/a.ts" = none ∧
    resolveModule dirEnv "./d" "/r/a.ts" = none := by
  refine ⟨rfl, rfl, ?_⟩
  decide

/-- C5 as amended: when primary resolution fails and the specifier is
relative, the resolver returns the first existing candidate among the
specifier with the extensions `.ts`, `.tsx`, `.js`, `.jsx` and the directory
index files `index.ts` and `index.tsx` only (not `.js`/`.jsx` index files),
falling back to the bare path when it is an existing file. -/
theorem c5_amended_fallback_candidates :
    ∀ (env : REnv) (specifier fromFile : String),
      env.tsResolve specifier fromFile = none →
      strStarts specifier "." = true →
      resolveModule env specifier fromFile =
        (match [env.resolveRelative fromFile specifier ++ ".ts",
                env.resolveRelative fromFile specifier ++ ".tsx",
                env.resolveRelative fromFile specifier ++ ".js",
                env.resolveRelative fromFile specifier ++ ".jsx",
                env.resolveRelative fromFile specifier ++ "/index.ts",
                env.resolveRelative fromFile specifier ++ "/index.tsx"].find? env.fsExists with
         | some candidate => some candidate
         | none =>
           if env.fsExists (env.resolveRelative fromFile specifier) &&
               env.fsIsFile (env.resolveRelative fromFile specifier) then
             some (env.resolveRelative fromFile specifier)
           else none) := by
  intro env specifier fromFile h1 h2
  unfold resolveModule
  rw [h1]
  simp only [h2]
  have hmap : [env.resolveRelative fromFile specifier ++ ".ts",
      env.resolveRelative fromFile specifier ++ ".tsx",
      env.resolveRelative fromFile specifier ++ ".js",
      env.resolveRelative fromFile specifier ++ ".jsx",
      env.resolveRelative fromFile specifier ++ "/index.ts",
      env.resolveRelative fromFile specifier ++ "/index.tsx"] =
      [".ts", ".tsx", ".js", ".jsx", "/index.ts", "/index.tsx"].map
        (fun ext => env.resolveRelative fromFile specifier ++ ext) := rfl
  rw [hmap, List.find?_map]
  simp only [Function.comp_def]
  cases hf : [".ts", ".tsx", ".js", ".jsx", "/index.ts", "/index.tsx"].find?
      (fun ext => env.fsExists (env.resolveRelative fromFile specifier ++ ext)) <;>
    simp [hf]

/-- C5 witness: with `index.ts` present the amended candidate list resolves
the directory specifier to it. -/
theorem c5_witness :
    resolveModule dirTsEnv "./d" "/r/a.ts" = some "/r/d/index.ts" := by
  have h := c5_amended_fallback_candidates dirTsEnv "./d" "/r/a.ts" rfl rfl
  exact h.trans (by decide)

/-! ## C3: named-call DI recursion -/

theorem diLoopStepA (n : Nat) :
    resolveSimpleCall emptyREnv (n + 1) "a" diLoopFile diLoopFn =
      (match resolveSimpleCall emptyREnv n "b" diLoopFile diLoopFn with
       | none => none
       | some (some r) => some (some { r with kind := .diDefault })
       | some none => some none) := rfl

theorem diLoopStepB (n : Nat) :
    resolveSimpleCall emptyREnv (n + 1) "b" diLoopFile diLoopFn =
      (match resolveSimpleCall emptyREnv n "a" diLoopFile diLoopFn with
       | none => none
       | some (some r) => some (some { r with kind := .diDefault })
       | some none => some none) := rfl

/-- C3: the localRef inequality guard does not make named-call resolution
terminate. With two DI-default mappings whose localRefs `a` and `b` fail
local and import resolution, resolving `a` recurses into `b` and back into
`a` forever: at every recursion depth the fuel-indexed embedding is still
running (`none` marks an unfinished recursion), so the resolver reaches
neither a result nor `null` after any finite number of recursive steps. -/
theorem c3_di_guard_does_not_terminate :
    ∀ fuel : Nat,
      resolveSimpleCall emptyREnv fuel "a" diLoopFile diLoopFn = none ∧
      resolveSimpleCall emptyREnv fuel "b" diLoopFile diLoopFn = none := by
  intro fuel
  induction fuel with
  | zero => exact ⟨rfl, rfl⟩
  | succ n ih =>
    refine ⟨?_, ?_⟩
    · rw [diLoopStepA, ih.2]
    · rw [diLoopStepB, ih.1]

/-! ## C10: FunctionId round-trip -/

theorem dropAppendAux (l r : List Char) (k : Nat) :
    (l ++ r).drop (l.length + k) = r.drop k := by
  induction l with
  | nil => simp
  | cons c cs ih =>
    show (c :: (cs ++ r)).drop (cs.length + 1 + k) = r.drop k
    have h : cs.length + 1 + k = (cs.length + k) + 1 := by omega
    rw [h, List.drop_succ_cons]
    exact ih

theorem takeAppendAux (l r : List Char) : (l ++ r).take l.length = l := by
  induction l with
  | nil => simp
  | cons c cs ih => simp [ih]

theorem ccIdx_append (l r : List Char) (hfree : ccFree l = true)
    (hlast : l.getLast? ≠ some ':') :
    ccIdx (l ++ ':' :: ':' :: r) = some l.length := by
  induction l with
  | nil => rfl
  | cons c cs ih =>
    cases cs with
    | nil =>
      have hc : c ≠ ':' := fun h => hlast (by simp [h])
      show ccIdx (c :: ':' :: ':' :: r) = some 1
      simp [ccIdx, hc]
    | cons d ds =>
      by_cases hcd : c = ':' ∧ d = ':'
      · exfalso
        simp [ccFree, hcd] at hfree
      · have hfree' : ccFree (d :: ds) = true := by
          simpa [ccFree, hcd] using hfree
        have hlast' : (d :: ds).getLast? ≠ some ':' := by
          rwa [List.getLast?_cons_cons] at hlast
        have ihh := ih hfree' hlast'
        show ccIdx (c :: d :: (ds ++ ':' :: ':' :: r)) = some (ds.length + 1 + 1)
        have harr : ccIdx (d :: (ds ++ ':' :: ':' :: r)) = some (ds.length + 1) := by
          simpa using ihh
        simp [ccIdx, hcd, harr]

/-- C10 counterexample: a file path free of `::` but ending in `:` already
breaks the round-trip, because the path's trailing colon and the
separator's first colon form an earlier `::` occurrence. -/
theorem c10_counterexample :
    ccFree (String.data "a:") = true ∧
    parseFunctionId (makeFunctionId "a:" "x") = some ("a", ":x") ∧
    (("a" : String), (":x" : String)) ≠ (("a:" : String), ("x" : String)) := by
  refine ⟨rfl, by decide, by decide⟩

/-- C10 as amended: the round-trip holds when the file path neither contains
`::` nor ends in `:`; the precondition is necessary, as external descriptors
(file component `<external>::<specifier>`) split at their first `::` and
come back as a different pair. -/
theorem c10_roundtrip_amended :
    (∀ fp qn : String, ccFree fp.data = true → fp.data.getLast? ≠ some ':' →
      parseFunctionId (makeFunctionId fp qn) = some (fp, qn)) ∧
    (parseFunctionId (makeFunctionId "<external>::pkg" "f") = some ("<external>", "pkg::f") ∧
      (("<external>" : String), ("pkg::f" : String)) ≠
        (("<external>::pkg" : String), ("f" : String))) := by
  constructor
  · intro fp qn hfree hlast
    have hdata : (makeFunctionId fp qn).data = fp.data ++ ':' :: ':' :: qn.data := by
      show (fp ++ "::" ++ qn).data = _
      rw [String.data_append, String.data_append, List.append_assoc]
      rfl
    have htake : (fp.data ++ ':' :: ':' :: qn.data).take fp.data.length = fp.data :=
      takeAppendAux _ _
    have hdrop : (fp.data ++ ':' :: ':' :: qn.data).drop (fp.data.length + 2) = qn.data := by
      have h := dropAppendAux fp.data (':' :: ':' :: qn.data) 2
      simpa using h
    unfold parseFunctionId
    rw [hdata, ccIdx_append fp.data qn.data hfree hlast]
    simp only [htake, hdrop]
  · exact ⟨by decide, by decide⟩

/-- C10 witness: a concrete round-trip through the amended theorem. -/
theorem c10_witness :
    parseFunctionId (makeFunctionId "/src/foo.ts" "MyClass.doStuff") =
      some ("/src/foo.ts", "MyClass.doStuff") :=
  c10_roundtrip_amended.1 "/src/foo.ts" "MyClass.doStuff" (by decide) (by decide)

/-! ## C2: node cap of the forward traversal -/

theorem addNode_nodes_length (g : CallGraph) (n : FunctionNode) :
    (addNode g n).nodes.length ≤ g.nodes.length + 1 := by
  unfold addNode
  split
  · omega
  · simp

theorem addEdge_nodes (g : CallGraph) (e : CallEdge) : (addEdge g e).nodes = g.nodes := rfl

theorem stepResolution_graph (currentId : String) (depth : Nat) (cs : CallSite)
    (res : Resolution) (st : BfsState) :
    (stepResolution currentId depth cs res st).graph =
      (if st.edgeKeys.contains (edgeKeyOf currentId res.targetId) then
        addNode st.graph res.targetNode
      else
        addEdge (addNode st.graph res.targetNode)
          { callerId := currentId, calleeId := res.targetId,
            kind := res.kind, callLine := cs.line }) := rfl

theorem stepResolution_nodes_le (currentId : String) (depth : Nat) (cs : CallSite)
    (res : Resolution) (st : BfsState) :
    (stepResolution currentId depth cs res st).graph.nodes.length ≤
      st.graph.nodes.length + 1 := by
  rw [stepResolution_graph]
  split
  · exact addNode_nodes_length _ _
  · rw [addEdge_nodes]
    exact addNode_nodes_length _ _

theorem processCallSites_nodes_le (r : ResolverM) (curFile : ParsedFile)
    (curFn : ParsedFunction) (currentId : String) (depth : Nat) :
    ∀ (css : List CallSite) (st : BfsState),
      (processCallSites r curFile curFn currentId depth css st).graph.nodes.length ≤
        st.graph.nodes.length + css.length := by
  intro css
  induction css with
  | nil => intro st; simp [processCallSites]
  | cons cs rest ih =>
    intro st
    rw [processCallSites]
    split
    · have h := ih st
      simp only [List.length_cons]
      omega
    · rename_i res hres
      split
      · have h := ih st
        simp only [List.length_cons]
        omega
      · have h1 := ih (stepResolution currentId depth cs res st)
        have h2 := stepResolution_nodes_le currentId depth cs res st
        simp only [List.length_cons]
        omega

theorem bfsLoop_nodes_le (r : ResolverM) (o : BfsOptions) (c : Nat)
    (hb : CallSitesBounded r c) :
    ∀ (fuel : Nat) (queue : List (String × Nat)) (visited keys : List String)
      (g out : CallGraph),
      g.nodes.length ≤ max 1 (o.maxNodes - 1 + c) →
      bfsLoop r o fuel queue visited keys g = some out →
      out.nodes.length ≤ max 1 (o.maxNodes - 1 + c) := by
  intro fuel
  induction fuel with
  | zero =>
    intro queue visited keys g out _ heq
    exact absurd heq (by simp [bfsLoop])
  | succ n ih =>
    intro queue visited keys g out hg heq
    cases queue with
    | nil =>
      rw [bfsLoop] at heq
      cases heq
      exact hg
    | cons front rest =>
      obtain ⟨currentId, depth⟩ := front
      rw [bfsLoop] at heq
      split at heq
      · exact ih rest visited keys g out hg heq
      · split at heq
        · cases heq
          exact hg
        · split at heq
          · cases heq
          · rename_i fpqn curFilePath curQualName hparse
            split at heq
            · exact ih rest visited keys g out hg heq
            · rename_i curFile hget
              split at heq
              · exact ih rest visited keys g out hg heq
              · rename_i curFn hfind
                have hmem : curFn ∈ curFile.functions := List.mem_of_find?_eq_some hfind
                have hcs : curFn.callSites.length ≤ c :=
                  hb curFilePath curFile hget curFn hmem
                have hstep := processCallSites_nodes_le r curFile curFn currentId depth
                  curFn.callSites
                  { graph := g, visited := visited, edgeKeys := keys, newQueue := [] }
                refine ih _ _ _ _ out ?_ heq
                rename_i hdepth hnodes
                have hlt : g.nodes.length < o.maxNodes := by omega
                calc (processCallSites r curFile curFn currentId depth curFn.callSites
                      { graph := g, visited := visited, edgeKeys := keys,
                        newQueue := [] }).graph.nodes.length
                    ≤ g.nodes.length + curFn.callSites.length := hstep
                  _ ≤ (o.maxNodes - 1) + c := by omega
                  _ ≤ max 1 (o.maxNodes - 1 + c) := le_max_right _ _

/-- C2 as amended: the breadth-first build checks the node cap before
expanding a function but inserts every resolved target of that function
afterwards, so the bound the builder actually guarantees is
`max 1 (maxNodes - 1 + c)` where `c` bounds the call-site count of any
single function served by the resolver (the start node alone accounts for
the `1`); once the count reaches `maxNodes`, no further function is
expanded. -/
theorem c2_amended_node_bound :
    ∀ (r : ResolverM) (o : BfsOptions) (sourceId : String) (fuel : Nat)
      (g : CallGraph) (c : Nat),
      CallSitesBounded r c →
      forwardBfs fuel sourceId r o = some g →
      g.nodes.length ≤ max 1 (o.maxNodes - 1 + c) := by
  intro r o sourceId fuel g c hb heq
  unfold forwardBfs at heq
  split at heq
  · cases heq
  · split at heq
    · cases heq
      simp [createEmptyGraph]
    · split at heq
      · cases heq
        simp [createEmptyGraph]
      · refine bfsLoop_nodes_le r o c hb fuel _ _ _ _ g ?_ heq
        refine le_trans (addNode_nodes_length createEmptyGraph _) ?_
        simp [createEmptyGraph]

/-- C2 counterexample: with `maxNodes = 2` the build of a source function
that has two resolvable call sites produces three nodes, exceeding the cap
the claim states. -/
theorem c2_counterexample :
    (forwardBfs 10 "/a.ts::main" capResolver { maxDepth := 5, maxNodes := 2 }).map
        (fun g => g.nodes.length) = some 3 ∧
    ¬ ((3 : Nat) ≤ 2) :=
  ⟨by decide, by decide⟩

/-- C2 witness: the amended bound applied to the two-call-site scenario
(`maxNodes = 2`, per-function call-site bound `2`, so the bound is `3`). -/
theorem c2_witness :
    ((forwardBfs 10 "/a.ts::main" capResolver { maxDepth := 5, maxNodes := 2 }).map
        (fun g => g.nodes.length)).getD 0 ≤ max 1 (2 - 1 + 2) := by
  have hb : CallSitesBounded capResolver 2 := by
    intro p file hget fn hfn
    by_cases hp : p = "/a.ts"
    · subst hp
      have hfile : file = capFile := by
        have : some capFile = some file := by simpa [capResolver] using hget
        exact (Option.some.injEq _ _ ▸ this).symm
      subst hfile
      have hfn' : fn = capMainFn := by simpa [capFile] using hfn
      subst hfn'
      decide
    · simp [capResolver, hp] at hget
  cases heq : forwardBfs 10 "/a.ts::main" capResolver { maxDepth := 5, maxNodes := 2 } with
  | none => simp
  | some g =>
    have h := c2_amended_node_bound capResolver { maxDepth := 5, maxNodes := 2 }
      "/a.ts::main" 10 g 2 hb heq
    simpa using h

/-! ## C9: cluster-order stability -/

theorem pair_sublist_of_precedes {a b : String} {l : List String} (h : Precedes a b l) :
    [a, b].Sublist l := by
  obtain ⟨l1, l2, l3, rfl⟩ := h
  have h1 : [a, b].Sublist (a :: (l2 ++ b :: l3)) := by
    refine List.Sublist.cons₂ a ?_
    have hb : [b].Sublist (b :: l3) := by simp
    exact hb.trans (List.sublist_append_right l2 (b :: l3))
  exact h1.trans (List.sublist_append_right l1 (a :: (l2 ++ b :: l3)))

theorem precedes_of_pair_sublist {a b : String} :
    ∀ {l : List String}, [a, b].Sublist l → Precedes a b l := by
  intro l h
  induction l with
  | nil => cases h
  | cons c l' ih =>
    cases h with
    | cons _ h' =>
      obtain ⟨l1, l2, l3, hl⟩ := ih h'
      exact ⟨c :: l1, l2, l3, by rw [hl]; rfl⟩
    | cons₂ _ h' =>
      have hbmem : b ∈ l' := List.singleton_sublist.mp h'
      obtain ⟨s, t, hl⟩ := List.append_of_mem hbmem
      exact ⟨[], s, t, by rw [hl]; rfl⟩

theorem filter_precedes {p : String → Bool} {a b : String} {l : List String}
    (h : Precedes a b l) (ha : p a = true) (hb : p b = true) :
    Precedes a b (l.filter p) := by
  obtain ⟨l1, l2, l3, rfl⟩ := h
  refine ⟨l1.filter p, l2.filter p, l3.filter p, ?_⟩
  simp [List.filter_append, List.filter_cons, ha, hb]

theorem filter_spliceInsert (p : String → Bool) (l : List String) (i : Nat) (x : String)
    (hx : p x = false) : (spliceInsert l i x).filter p = l.filter p := by
  unfold spliceInsert
  rw [List.filter_append, List.filter_append]
  have h2 : List.filter p [x] = [] := by simp [List.filter_cons, hx]
  rw [h2, List.append_nil, ← List.filter_append, List.take_append_drop]

theorem insertNewClusters_filter (scan kept : List String) :
    ∀ (news cur : List String),
      (∀ fp ∈ news, kept.contains fp = false) →
      (insertNewClusters scan cur news).filter (fun x => kept.contains x) =
        cur.filter (fun x => kept.contains x) := by
  intro news
  induction news with
  | nil => intro cur _; rfl
  | cons fp rest ih =>
    intro cur hall
    rw [insertNewClusters]
    have hfp : kept.contains fp = false := hall fp (List.mem_cons_self _ _)
    rw [ih _ (fun q hq => hall q (List.mem_cons_of_mem _ hq)),
      filter_spliceInsert _ _ _ _ hfp]

/-- C9: re-running the cluster-order derivation of `assignCoordinates` with
a previously returned ordering preserves the relative order of every pair of
files that still appear — the kept slice of the previous ordering is
reproduced verbatim, and newly appeared files are only spliced in between.
In particular, toggling one file's collapsed state (which keeps every
remaining file's path in the scan order) cannot swap two uncollapsed
files. -/
theorem c9_cluster_order_stability :
    ∀ (previous scanOrder : List String) (a b : String),
      Precedes a b previous →
      scanOrder.contains a = true → scanOrder.contains b = true →
      Precedes a b (deriveClusterOrder previous scanOrder) := by
  intro previous scanOrder a b hab ha hb
  have hprev_len : 0 < previous.length := by
    obtain ⟨l1, l2, l3, rfl⟩ := hab
    simp
  unfold deriveClusterOrder
  rw [if_pos hprev_len]
  have hkeptPrec : Precedes a b (previous.filter (fun fp => scanOrder.contains fp)) :=
    filter_precedes hab ha hb
  have hnews : ∀ fp ∈ scanOrder.filter
      (fun fp => !(previous.filter (fun fp => scanOrder.contains fp)).contains fp),
      (previous.filter (fun fp => scanOrder.contains fp)).contains fp = false := by
    intro fp hfp
    have h2 := (List.mem_filter.mp hfp).2
    simp only [Bool.not_eq_true'] at h2
    exact h2
  have hfil := insertNewClusters_filter scanOrder
    (previous.filter (fun fp => scanOrder.contains fp)) _
    (previous.filter (fun fp => scanOrder.contains fp)) hnews
  have hself : (previous.filter (fun fp => scanOrder.contains fp)).filter
      (fun x => (previous.filter (fun fp => scanOrder.contains fp)).contains x) =
      previous.filter (fun fp => scanOrder.contains fp) := by
    apply List.filter_eq_self.mpr
    intro x hx
    exact (contains_iff_mem _ x).mpr hx
  have hsub : (previous.filter (fun fp => scanOrder.contains fp)).Sublist
      (insertNewClusters scanOrder (previous.filter (fun fp => scanOrder.contains fp))
        (scanOrder.filter
          (fun fp => !(previous.filter (fun fp => scanOrder.contains fp)).contains fp))) := by
    have hfs := List.filter_sublist
      (p := fun x => (previous.filter (fun fp => scanOrder.contains fp)).contains x)
      (l := insertNewClusters scanOrder (previous.filter (fun fp => scanOrder.contains fp))
        (scanOrder.filter
          (fun fp => !(previous.filter (fun fp => scanOrder.contains fp)).contains fp)))
    rw [hfil, hself] at hfs
    exact hfs
  exact precedes_of_pair_sublist ((pair_sublist_of_precedes hkeptPrec).trans hsub)

/-- C9 witness: toggling `b.ts` out of a three-file ordering keeps `a.ts`
before `c.ts` in the re-derived cluster order. -/
theorem c9_witness :
    Precedes "a.ts" "c.ts" (deriveClusterOrder ["a.ts", "b.ts", "c.ts"]
      ["c.ts", "a.ts", "d.ts"]) :=
  c9_cluster_order_stability ["a.ts", "b.ts", "c.ts"] ["c.ts", "a.ts", "d.ts"]
    "a.ts" "c.ts" ⟨[], ["b.ts"], [], rfl⟩ (by decide) (by decide)

/-! ## C4: the synthetic module scope -/

theorem dot_mem_append_right {a b : String} (hb : ('.' : Char) ∈ b.data) :
    ('.' : Char) ∈ (a ++ b).data := by
  rw [String.data_append]
  exact List.mem_append_right _ hb

theorem ne_module_of_dot {s : String} (h : ('.' : Char) ∈ s.data) : s ≠ "<module>" := by
  intro he
  subst he
  exact absurd h (by decide)

theorem extractFunction_qualifiedName (q : String) (line : Nat) (endLine : Nat)
    (params : List (String × Option TsNode)) (body : TsNode) (ii : Bool) :
    (extractFunction q line endLine params body ii).qualifiedName = q := rfl

theorem parseClassMembers_dot (cn : String) (members : List TsNode) :
    ∀ fn ∈ parseClassMembers cn members, ('.' : Char) ∈ fn.qualifiedName.data := by
  intro fn hfn
  obtain ⟨m, _, hf⟩ := List.mem_filterMap.mp hfn
  cases m with
  | methodDecl l e name params body =>
    simp only [Option.some.injEq] at hf
    rw [← hf, extractFunction_qualifiedName]
    have h1 : ('.' : Char) ∈ ("." ++ name).data := by
      rw [String.data_append]
      exact List.mem_append_left _ (by decide)
    rw [String.append_assoc]
    exact dot_mem_append_right h1
  | ctorDecl l e params body =>
    simp only [Option.some.injEq] at hf
    rw [← hf]
    show ('.' : Char) ∈ (cn ++ ".constructor").data
    exact dot_mem_append_right (by decide)
  | ident s => simp at hf
  | thisKeyword => simp at hf
  | strLit s => simp at hf
  | propAccess o p => simp at hf
  | callExpr l f a => simp at hf
  | newExpr l f a => simp at hf
  | arrowFn p b => simp at hf
  | funcExpr p b => simp at hf
  | objectLit props => simp at hf
  | assignExpr lhs rhs => simp at hf
  | parenExpr e => simp at hf
  | block stmts => simp at hf
  | exprStmt e => simp at hf
  | returnStmt e => simp at hf
  | funcDecl a b c d f g h => simp at hf
  | classDecl a b c d => simp at hf
  | importDecl a b c d => simp at hf

theorem parseStmt_module_free (stmt : TsNode) (acc : ParseAcc)
    (hs : declaredFuncName stmt ≠ some "<module>")
    (hacc : ∀ f ∈ acc.functions, f.qualifiedName ≠ "<module>") :
    ∀ f ∈ (parseStmt acc stmt).functions, f.qualifiedName ≠ "<module>" := by
  cases stmt with
  | importDecl a b c d => exact hacc
  | funcDecl line endLine name exported isDefault params body =>
    intro f hf
    have hn : name ≠ "<module>" := fun he => hs (by simp [declaredFuncName, he])
    simp only [parseStmt, List.mem_append, List.mem_singleton] at hf
    cases hf with
    | inl h => exact hacc f h
    | inr h => rw [h, extractFunction_qualifiedName]; exact hn
  | classDecl name exported isDefault members =>
    intro f hf
    simp only [parseStmt, List.mem_append] at hf
    cases hf with
    | inl h => exact hacc f h
    | inr h => exact ne_module_of_dot (parseClassMembers_dot name members f h)
  | ident s => exact hacc
  | thisKeyword => exact hacc
  | strLit s => exact hacc
  | propAccess o p => exact hacc
  | callExpr l g a => exact hacc
  | newExpr l g a => exact hacc
  | arrowFn p b => exact hacc
  | funcExpr p b => exact hacc
  | objectLit props => exact hacc
  | assignExpr lhs rhs => exact hacc
  | parenExpr e => exact hacc
  | block stmts => exact hacc
  | exprStmt e => exact hacc
  | returnStmt e => exact hacc
  | ctorDecl a b c d => exact hacc
  | methodDecl a b c d e => exact hacc

theorem parseFold_module_free : ∀ (stmts : List TsNode) (acc : ParseAcc),
    (∀ s ∈ stmts, declaredFuncName s ≠ some "<module>") →
    (∀ f ∈ acc.functions, f.qualifiedName ≠ "<module>") →
    ∀ f ∈ (stmts.foldl parseStmt acc).functions, f.qualifiedName ≠ "<module>" := by
  intro stmts
  induction stmts with
  | nil => intro acc _ hacc; exact hacc
  | cons s rest ih =>
    intro acc hs hacc
    exact ih (parseStmt acc s) (fun t ht => hs t (List.mem_cons_of_mem _ ht))
      (parseStmt_module_free s acc (hs s (List.mem_cons_self _ _)) hacc)

theorem moduleCallSites_cons (s : TsNode) (rest : List TsNode) :
    moduleCallSites (s :: rest) =
      (if isExprStmt s then extractCallSites s none else []) ++ moduleCallSites rest := by
  cases s <;> rfl

theorem moduleCallSites_ne_nil_iff : ∀ (stmts : List TsNode),
    moduleCallSites stmts ≠ [] ↔
      ∃ s ∈ stmts, isExprStmt s = true ∧ extractCallSites s none ≠ [] := by
  intro stmts
  induction stmts with
  | nil => simp [moduleCallSites]
  | cons s rest ih =>
    rw [moduleCallSites_cons]
    by_cases hx : isExprStmt s
    · rw [if_pos hx]
      constructor
      · intro h
        by_cases he : extractCallSites s none = []
        · rw [he, List.nil_append] at h
          obtain ⟨t, ht, h1, h2⟩ := ih.mp h
          exact ⟨t, List.mem_cons_of_mem _ ht, h1, h2⟩
        · exact ⟨s, List.mem_cons_self _ _, hx, he⟩
      · rintro ⟨t, ht, h1, h2⟩
        rcases List.mem_cons.mp ht with rfl | ht'
        · intro hc
          exact h2 (List.append_eq_nil.mp hc).1
        · intro hc
          exact (ih.mpr ⟨t, ht', h1, h2⟩) (List.append_eq_nil.mp hc).2
    · rw [if_neg hx, List.nil_append]
      constructor
      · intro h
        obtain ⟨t, ht, h1, h2⟩ := ih.mp h
        exact ⟨t, List.mem_cons_of_mem _ ht, h1, h2⟩
      · rintro ⟨t, ht, h1, h2⟩
        rcases List.mem_cons.mp ht with rfl | ht'
        · exact absurd h1 hx
        · exact ih.mpr ⟨t, ht', h1, h2⟩

/-- C4 (corrected). The spec claims the parser emits a `<module>`
pseudo-function iff some top-level expression statement has a syntactic
descendant that is a call. In the code, the condition is that the
call-site extraction — which does not descend into arrow functions or
function expressions except when they are call arguments — finds a call
site in some top-level expression statement. Under the (always true for
TypeScript sources) side condition that no declared function is itself
named `<module>`: the parser emits a function named `<module>` iff some
top-level expression statement yields a non-empty call-site extraction;
and any emitted `<module>` function starts at line 1, ends at the file's
total line count, is uninstrumented, and carries exactly the module-level
call sites. -/
theorem c4_module_iff_extraction (fp : String) (file : SourceFile)
    (hdecl : ∀ s ∈ file.statements, declaredFuncName s ≠ some "<module>") :
    (((parseSource fp file).functions.any (fun f => f.qualifiedName == "<module>")) = true ↔
      ∃ s ∈ file.statements, isExprStmt s = true ∧ extractCallSites s none ≠ []) ∧
    ∀ f ∈ (parseSource fp file).functions, f.qualifiedName = "<module>" →
      f.line = 1 ∧ f.endLine = some file.totalLines ∧ f.isInstrumented = false ∧
      f.callSites = moduleCallSites file.statements := by
  have hmain : ∀ f ∈ (file.statements.foldl parseStmt
      { functions := [], imports := [], exportedNames := [] }).functions,
      f.qualifiedName ≠ "<module>" :=
    parseFold_module_free file.statements _ hdecl
      (fun f hf => absurd hf (List.not_mem_nil f))
  have hfns : (parseSource fp file).functions =
      if (moduleCallSites file.statements).isEmpty then
        (file.statements.foldl parseStmt
          { functions := [], imports := [], exportedNames := [] }).functions
      else (file.statements.foldl parseStmt
          { functions := [], imports := [], exportedNames := [] }).functions ++
        [{ qualifiedName := "<module>", line := 1, endLine := some file.totalLines,
           isInstrumented := false, callSites := moduleCallSites file.statements,
           diDefaults := [] }] := rfl
  by_cases hm : moduleCallSites file.statements = []
  · have hempty : (moduleCallSites file.statements).isEmpty = true := by
      rw [hm]; rfl
    rw [hfns, if_pos hempty]
    constructor
    · constructor
      · intro h
        obtain ⟨f, hf, hp⟩ := List.any_eq_true.mp h
        exact absurd (by simpa using hp) (hmain f hf)
      · rintro ⟨s, hs, h1, h2⟩
        exact absurd hm ((moduleCallSites_ne_nil_iff file.statements).mpr ⟨s, hs, h1, h2⟩)
    · intro f hf hname
      exact absurd hname (hmain f hf)
  · have hempty : (moduleCallSites file.statements).isEmpty = false := by
      cases hml : moduleCallSites file.statements with
      | nil => exact absurd hml hm
      | cons a l => rfl
    rw [hfns, if_neg (by simp [hempty])]
    constructor
    · constructor
      · intro _
        exact (moduleCallSites_ne_nil_iff file.statements).mp hm
      · intro _
        rw [List.any_append]
        simp
    · intro f hf hname
      rcases List.mem_append.mp hf with h | h
      · exact absurd hname (hmain f h)
      · rw [List.mem_singleton.mp h]
        exact ⟨rfl, rfl, rfl, rfl⟩

/-- Counterexample to C4 as stated: a file whose only top-level statement is
the expression statement `() => foo();`. Its syntactic descendants contain a
call, yet the parser emits no `<module>` function, because the call-site
extraction does not descend into an arrow function that is not a call
argument. -/
theorem c4_counterexample :
    (∃ s ∈ arrowStmtAst.statements, isExprStmt s = true ∧ hasCallDescendant s = true) ∧
    ((parseSource "/m.ts" arrowStmtAst).functions.any
      (fun f => f.qualifiedName == "<module>")) = false := by
  refine ⟨⟨_, List.mem_cons_self _ _, rfl, ?_⟩, ?_⟩
  · simp [hasCallDescendant, anyParamCall, arrowStmtAst]
  · simp [parseSource, parseStmt, moduleCallSites, arrowStmtAst,
      extractCallSites, List.foldl]

/-- Witness for C4: a file whose single top-level statement is `boot();`
does get a `<module>` function. -/
theorem c4_witness :
    (∀ s ∈ bootAst.statements, declaredFuncName s ≠ some "<module>") ∧
    ((parseSource "/w.ts" bootAst).functions.any
      (fun f => f.qualifiedName == "<module>")) = true := by
  have hh : ∀ s ∈ bootAst.statements, declaredFuncName s ≠ some "<module>" := by
    intro s hs
    have he : s = TsNode.exprStmt (.callExpr 1 (.ident "boot") []) := by
      simpa [bootAst] using hs
    rw [he]
    simp [declaredFuncName]
  refine ⟨hh, ?_⟩
  exact (c4_module_iff_extraction "/w.ts" bootAst hh).1.mpr
    ⟨_, List.mem_cons_self _ _, rfl, by
      simp [extractCallSites, csArgs, csList, csProps, extractCallSiteFromCallExpression]⟩

/-- C1 (code bug; field assignments spec-modelled). The field-assignment
half of the claim holds: `this.F = P.K` with `P` a parameter yields the
`FieldAssignment (F, P, K)`. But the scenario's consequent fails on the
scenario as the spec writes it: its constructor default is the shorthand
`deps = { streamText }`, and `extractDiDefaults` skips every property that
is not an explicit assignment, so the constructor records no
`DiDefaultMapping`; strategy 3b then finds the field assignment but no
matching mapping and no `localRef`, and the graph built from `Agent.run` has
no edge at all — in particular no `di-default` edge to `streamText`. With
the explicit spelling `{ streamText: streamText }` the same build does
produce the edge, isolating the shorthand skip as the cause. -/
theorem c1_constructor_di_scenario :
    (∀ (params : List (String × Option TsNode)) (stmts : List TsNode) (F P K : String),
        (TsNode.exprStmt (.assignExpr (.propAccess .thisKeyword F)
          (.propAccess (.ident P) K))) ∈ stmts →
        params.any (fun pr => pr.1 = P) = true →
        ({ fieldName := F, paramName := some P, propName := some K } : FieldAssignment)
          ∈ extractFieldAssignments params (.block stmts)) ∧
    (∀ (pname : String) (names : List String) (rest : List (String × Option TsNode)),
        extractDiDefaults ((pname, some (.objectLit (names.map ObjProp.shorthand))) :: rest) =
          extractDiDefaults rest) ∧
    parseSource "/repo/streamText.ts" streamTextAst = streamTextParsed ∧
    parseSource "/repo/agent.ts" agentAst = agentParsed ∧
    parseSource "/repo/agent.ts" agentAstExplicit = agentParsedExplicit ∧
    (∃ g, forwardBfs 10 (makeFunctionId "/repo/agent.ts" "Agent.run")
        (mkResolver diEnv 10) { maxDepth := 10, maxNodes := 100 } = some g ∧
      g.edges = []) ∧
    (∃ g, forwardBfs 10 (makeFunctionId "/repo/agent.ts" "Agent.run")
        (mkResolver diEnvExplicit 10) { maxDepth := 10, maxNodes := 100 } = some g ∧
      ∃ e ∈ g.edges, e.kind = EdgeKind.diDefault ∧
        e.calleeId = makeFunctionId "/repo/streamText.ts" "streamText") := by
  refine ⟨?_, ?_, ?_, ?_, ?_, ?_, ?_⟩
  · intro params stmts F P K hmem hP
    show _ ∈ stmts.filterMap _
    exact List.mem_filterMap.mpr ⟨_, hmem, by simp [hP]⟩
  · intro pname names rest
    have hnil : (names.map ObjProp.shorthand).filterMap (diOfProp pname) = [] := by
      induction names with
      | nil => rfl
      | cons n ns ih => simp [List.filterMap_cons, diOfProp, ih]
    show (names.map ObjProp.shorthand).filterMap (diOfProp pname) ++
      extractDiDefaults rest = extractDiDefaults rest
    rw [hnil, List.nil_append]
  · simp [parseSource, streamTextAst, streamTextParsed, parseStmt, extractFunction,
      extractDiDefaults, charIdx, moduleCallSites, extractCallSites, csArgs, csList, csProps,
      extractCallSiteFromCallExpression, mapSet, importsOfDecl]
  · simp [parseSource, agentAst, agentParsed, parseStmt, parseClassMembers, extractFunction,
      extractDiDefaults, diOfProp, extractFieldAssignments, charIdx, moduleCallSites,
      extractCallSites, csArgs, csList, csProps, extractCallSiteFromCallExpression,
      mapSet, importsOfDecl]
  · simp [parseSource, agentAstExplicit, agentParsedExplicit, agentParsed, parseStmt,
      parseClassMembers, extractFunction, extractDiDefaults, diOfProp,
      extractFieldAssignments, charIdx, moduleCallSites, extractCallSites, csArgs, csList,
      csProps, extractCallSiteFromCallExpression, mapSet, importsOfDecl]
  · exact ⟨_, rfl, by decide⟩
  · exact ⟨_, rfl, by decide⟩

/-! ## C7 helpers: graph soundness -/

theorem mapHas_append_left {α : Type} (m m' : List (String × α)) (k : String)
    (h : mapHas m k = true) : mapHas (m ++ m') k = true := by
  unfold mapHas at h ⊢
  rw [mapGet?_append]
  cases hg : mapGet? m k with
  | none => rw [hg] at h; simp at h
  | some v => simp

theorem mapHas_append_self {α : Type} (m : List (String × α)) (k : String) (v : α) :
    mapHas (m ++ [(k, v)]) k = true := by
  unfold mapHas
  rw [mapGet?_append]
  cases hg : mapGet? m k <;> simp [mapGet?]

theorem addNode_edges (g : CallGraph) (n : FunctionNode) : (addNode g n).edges = g.edges := by
  unfold addNode
  split <;> rfl

theorem addEdge_edges (g : CallGraph) (e : CallEdge) : (addEdge g e).edges = g.edges ++ [e] := rfl

theorem mapHas_addNode_mono (g : CallGraph) (n : FunctionNode) (id : String)
    (h : mapHas g.nodes id = true) : mapHas (addNode g n).nodes id = true := by
  unfold addNode
  split
  · exact h
  · show mapHas (g.nodes ++ [(n.id, n)]) id = true
    exact mapHas_append_left _ _ _ h

theorem mapHas_addNode_self (g : CallGraph) (n : FunctionNode) :
    mapHas (addNode g n).nodes n.id = true := by
  unfold addNode
  split
  · rename_i h; exact h
  · show mapHas (g.nodes ++ [(n.id, n)]) n.id = true
    exact mapHas_append_self _ _ _

theorem contains_append_left (l l' : List String) (a : String)
    (h : l.contains a = true) : (l ++ l').contains a = true := by
  rw [contains_iff_mem] at h ⊢
  exact List.mem_append_left _ h

theorem contains_append_self (l : List String) (a : String) :
    (l ++ [a]).contains a = true := by
  rw [contains_iff_mem]
  exact List.mem_append_right _ (List.mem_singleton.mpr rfl)

/-- Invariant of the call-site loop of `forwardBfs` used for graph
soundness: the partial graph is sound, every existing edge's key is
registered, the dequeued function is a node, and every enqueued id is a
node. -/
@[reducible] def StInv (currentId : String) (st : BfsState) : Prop :=
  SoundGraph st.graph ∧
  (∀ e ∈ st.graph.edges, st.edgeKeys.contains (edgeKeyOf e.callerId e.calleeId) = true) ∧
  mapHas st.graph.nodes currentId = true ∧
  (∀ q ∈ st.newQueue, mapHas st.graph.nodes q.1 = true)

theorem stepResolution_edgeKeys (currentId : String) (depth : Nat) (cs : CallSite)
    (res : Resolution) (st : BfsState) :
    (stepResolution currentId depth cs res st).edgeKeys =
      if st.edgeKeys.contains (edgeKeyOf currentId res.targetId) then st.edgeKeys
      else st.edgeKeys ++ [edgeKeyOf currentId res.targetId] := rfl

theorem stepResolution_newQueue (currentId : String) (depth : Nat) (cs : CallSite)
    (res : Resolution) (st : BfsState) :
    (stepResolution currentId depth cs res st).newQueue =
      if st.visited.contains res.targetId then st.newQueue
      else st.newQueue ++ [(res.targetId, depth + 1)] := rfl

theorem stepResolution_inv (currentId : String) (depth : Nat) (cs : CallSite)
    (res : Resolution) (st : BfsState)
    (hid : res.targetNode.id = res.targetId)
    (hneq : ¬ res.targetId = currentId)
    (h : StInv currentId st) :
    StInv currentId (stepResolution currentId depth cs res st) := by
  obtain ⟨⟨hends, hself, hpair⟩, hcov, hcur, hq⟩ := h
  have hneq' : currentId ≠ res.targetId := fun hh => hneq hh.symm
  have htgt : mapHas (addNode st.graph res.targetNode).nodes res.targetId = true := by
    rw [← hid]
    exact mapHas_addNode_self st.graph res.targetNode
  by_cases hk : st.edgeKeys.contains (edgeKeyOf currentId res.targetId) = true
  · have hgraph : (stepResolution currentId depth cs res st).graph =
        addNode st.graph res.targetNode := by
      rw [stepResolution_graph, if_pos hk]
    have hkeys : (stepResolution currentId depth cs res st).edgeKeys = st.edgeKeys := by
      rw [stepResolution_edgeKeys, if_pos hk]
    refine ⟨⟨?_, ?_, ?_⟩, ?_, ?_, ?_⟩
    · intro e he
      rw [hgraph, addNode_edges] at he
      rw [hgraph]
      exact ⟨mapHas_addNode_mono _ _ _ (hends e he).1, mapHas_addNode_mono _ _ _ (hends e he).2⟩
    · intro e he
      rw [hgraph, addNode_edges] at he
      exact hself e he
    · rw [hgraph, addNode_edges]
      exact hpair
    · intro e he
      rw [hgraph, addNode_edges] at he
      rw [hkeys]
      exact hcov e he
    · rw [hgraph]
      exact mapHas_addNode_mono _ _ _ hcur
    · intro q hq2
      rw [hgraph]
      rw [stepResolution_newQueue] at hq2
      split at hq2
      · exact mapHas_addNode_mono _ _ _ (hq q hq2)
      · rcases List.mem_append.mp hq2 with hh | hh
        · exact mapHas_addNode_mono _ _ _ (hq q hh)
        · rw [List.mem_singleton.mp hh]
          exact htgt
  · have hgraph : (stepResolution currentId depth cs res st).graph =
        addEdge (addNode st.graph res.targetNode)
          { callerId := currentId, calleeId := res.targetId,
            kind := res.kind, callLine := cs.line } := by
      rw [stepResolution_graph, if_neg hk]
    have hkeys : (stepResolution currentId depth cs res st).edgeKeys =
        st.edgeKeys ++ [edgeKeyOf currentId res.targetId] := by
      rw [stepResolution_edgeKeys, if_neg hk]
    have hedges : (stepResolution currentId depth cs res st).graph.edges =
        st.graph.edges ++
          [{ callerId := currentId, calleeId := res.targetId,
             kind := res.kind, callLine := cs.line }] := by
      rw [hgraph, addEdge_edges, addNode_edges]
    refine ⟨⟨?_, ?_, ?_⟩, ?_, ?_, ?_⟩
    · intro e he
      rw [hedges] at he
      rw [hgraph]
      rcases List.mem_append.mp he with hh | hh
      · exact ⟨mapHas_addNode_mono _ _ _ (hends e hh).1, mapHas_addNode_mono _ _ _ (hends e hh).2⟩
      · rw [List.mem_singleton.mp hh]
        exact ⟨mapHas_addNode_mono _ _ _ hcur, htgt⟩
    · intro e he
      rw [hedges] at he
      rcases List.mem_append.mp he with hh | hh
      · exact hself e hh
      · rw [List.mem_singleton.mp hh]
        exact hneq'
    · rw [hedges]
      refine List.pairwise_append.mpr ⟨hpair, by simp, ?_⟩
      intro a ha b hb hab
      rw [List.mem_singleton.mp hb] at hab
      have hkey := hcov a ha
      rw [hab.1, hab.2] at hkey
      exact absurd hkey hk
    · intro e he
      rw [hedges] at he
      rw [hkeys]
      rcases List.mem_append.mp he with hh | hh
      · exact contains_append_left _ _ _ (hcov e hh)
      · rw [List.mem_singleton.mp hh]
        exact contains_append_self _ _
    · rw [hgraph]
      exact mapHas_addNode_mono _ _ _ hcur
    · intro q hq2
      rw [hgraph]
      rw [stepResolution_newQueue] at hq2
      split at hq2
      · exact mapHas_addNode_mono _ _ _ (hq q hq2)
      · rcases List.mem_append.mp hq2 with hh | hh
        · exact mapHas_addNode_mono _ _ _ (hq q hh)
        · rw [List.mem_singleton.mp hh]
          exact htgt

theorem stepResolution_nodes_mono (currentId : String) (depth : Nat) (cs : CallSite)
    (res : Resolution) (st : BfsState) (id : String)
    (h : mapHas st.graph.nodes id = true) :
    mapHas (stepResolution currentId depth cs res st).graph.nodes id = true := by
  rw [stepResolution_graph]
  split
  · exact mapHas_addNode_mono _ _ _ h
  · rw [show (addEdge (addNode st.graph res.targetNode)
      { callerId := currentId, calleeId := res.targetId,
        kind := res.kind, callLine := cs.line }).nodes =
      (addNode st.graph res.targetNode).nodes from rfl]
    exact mapHas_addNode_mono _ _ _ h

theorem processCallSites_inv (r : ResolverM) (hR : ROk r) (curFile : ParsedFile)
    (curFn : ParsedFunction) (currentId : String) (depth : Nat) :
    ∀ (css : List CallSite) (st : BfsState), StInv currentId st →
      StInv currentId (processCallSites r curFile curFn currentId depth css st) ∧
      (∀ id, mapHas st.graph.nodes id = true →
        mapHas (processCallSites r curFile curFn currentId depth css st).graph.nodes id
          = true) := by
  intro css
  induction css with
  | nil => intro st h; exact ⟨h, fun id hid => hid⟩
  | cons cs rest ih =>
    intro st h
    rw [processCallSites]
    split
    · exact ih st h
    · rename_i res hres
      split
      · exact ih st h
      · rename_i hneq
        have hid : res.targetNode.id = res.targetId := hR cs curFile curFn res hres
        obtain ⟨h1, h2⟩ := ih (stepResolution currentId depth cs res st)
          (stepResolution_inv currentId depth cs res st hid hneq h)
        exact ⟨h1, fun id hid2 =>
          h2 id (stepResolution_nodes_mono currentId depth cs res st id hid2)⟩

theorem bfsLoop_sound (r : ResolverM) (o : BfsOptions) (hR : ROk r) :
    ∀ (fuel : Nat) (queue : List (String × Nat)) (visited keys : List String)
      (g out : CallGraph),
      SoundGraph g →
      (∀ e ∈ g.edges, keys.contains (edgeKeyOf e.callerId e.calleeId) = true) →
      (∀ q ∈ queue, mapHas g.nodes q.1 = true) →
      bfsLoop r o fuel queue visited keys g = some out →
      SoundGraph out := by
  intro fuel
  induction fuel with
  | zero =>
    intro queue visited keys g out _ _ _ heq
    exact absurd heq (by simp [bfsLoop])
  | succ n ih =>
    intro queue visited keys g out hS hcov hq heq
    cases queue with
    | nil =>
      rw [bfsLoop] at heq
      cases heq
      exact hS
    | cons front rest =>
      obtain ⟨currentId, depth⟩ := front
      rw [bfsLoop] at heq
      split at heq
      · exact ih rest visited keys g out hS hcov
          (fun q hq2 => hq q (List.mem_cons_of_mem _ hq2)) heq
      · split at heq
        · cases heq
          exact hS
        · split at heq
          · cases heq
          · rename_i fpqn curFilePath curQualName hparse
            split at heq
            · exact ih rest visited keys g out hS hcov
                (fun q hq2 => hq q (List.mem_cons_of_mem _ hq2)) heq
            · rename_i curFile hget
              split at heq
              · exact ih rest visited keys g out hS hcov
                  (fun q hq2 => hq q (List.mem_cons_of_mem _ hq2)) heq
              · rename_i curFn hfind
                have hcur : mapHas g.nodes currentId = true :=
                  hq _ (List.mem_cons_self _ _)
                obtain ⟨⟨hS', hcov', hcur', hq'⟩, hmono⟩ :=
                  processCallSites_inv r hR curFile curFn currentId depth curFn.callSites
                    { graph := g, visited := visited, edgeKeys := keys, newQueue := [] }
                    ⟨hS, hcov, hcur, fun q hq2 => absurd hq2 (List.not_mem_nil q)⟩
                refine ih _ _ _ _ out hS' hcov' ?_ heq
                intro q hq2
                rcases List.mem_append.mp hq2 with hh | hh
                · exact hmono q.1 (hq q (List.mem_cons_of_mem _ hh))
                · exact hq' q hh

theorem forwardBfs_sound (fuel : Nat) (sourceId : String) (r : ResolverM) (o : BfsOptions)
    (g : CallGraph) (hR : ROk r) (h : forwardBfs fuel sourceId r o = some g) :
    SoundGraph g := by
  have hempty : SoundGraph createEmptyGraph :=
    ⟨fun e he => absurd he (List.not_mem_nil e),
     fun e he => absurd he (List.not_mem_nil e), List.Pairwise.nil⟩
  unfold forwardBfs at h
  split at h
  · cases h
  · rename_i fpqn filePath qualifiedName hparse
    split at h
    · cases h
      exact hempty
    · split at h
      · cases h
        exact hempty
      · rename_i pr resolvedQN startFn hres
        refine bfsLoop_sound r o hR fuel _ _ _ _ g ?_ ?_ ?_ h
        · refine ⟨?_, ?_, ?_⟩
          · intro e he
            rw [addNode_edges] at he
            exact absurd he (List.not_mem_nil e)
          · intro e he
            rw [addNode_edges] at he
            exact absurd he (List.not_mem_nil e)
          · rw [addNode_edges]
            exact List.Pairwise.nil
        · intro e he
          rw [addNode_edges] at he
          exact absurd he (List.not_mem_nil e)
        · intro q hq
          rw [List.mem_singleton.mp hq]
          exact mapHas_addNode_self createEmptyGraph _

theorem foldl_addNode_edges (l : List (String × FunctionNode)) :
    ∀ m0 : CallGraph, (l.foldl (fun m kv => addNode m kv.2) m0).edges = m0.edges := by
  induction l with
  | nil => intro m0; rfl
  | cons kv rest ih =>
    intro m0
    rw [List.foldl_cons, ih, addNode_edges]

theorem foldl_addNode_has_mono (l : List (String × FunctionNode)) :
    ∀ (m0 : CallGraph) (id : String), mapHas m0.nodes id = true →
      mapHas ((l.foldl (fun m kv => addNode m kv.2) m0)).nodes id = true := by
  induction l with
  | nil => intro m0 id h; exact h
  | cons kv rest ih =>
    intro m0 id h
    exact ih _ _ (mapHas_addNode_mono _ _ _ h)

theorem foldl_addNode_has_of_mem (l : List (String × FunctionNode)) :
    ∀ (m0 : CallGraph) (k : String) (v : FunctionNode),
      (k, v) ∈ l → v.id = k →
      mapHas ((l.foldl (fun m kv => addNode m kv.2) m0)).nodes k = true := by
  induction l with
  | nil => intro m0 k v h _; exact absurd h (List.not_mem_nil _)
  | cons kv rest ih =>
    intro m0 k v h hid
    rcases List.mem_cons.mp h with hh | hh
    · obtain rfl : kv = (k, v) := hh.symm
      rw [List.foldl_cons]
      refine foldl_addNode_has_mono rest _ k ?_
      show mapHas (addNode m0 v).nodes k = true
      rw [← hid]
      exact mapHas_addNode_self m0 v
    · exact ih _ k v hh hid

theorem mergeEdgeFold_inv :
    ∀ (es : List CallEdge) (p : CallGraph × List String),
      SoundGraph p.1 →
      (∀ e ∈ p.1.edges, p.2.contains (edgeKeyOf e.callerId e.calleeId) = true) →
      (∀ e ∈ es, mapHas p.1.nodes e.callerId = true ∧ mapHas p.1.nodes e.calleeId = true) →
      (∀ e ∈ es, e.callerId ≠ e.calleeId) →
      SoundGraph (es.foldl mergeStep p).1 ∧
      (∀ e ∈ (es.foldl mergeStep p).1.edges,
        (es.foldl mergeStep p).2.contains (edgeKeyOf e.callerId e.calleeId) = true) ∧
      (es.foldl mergeStep p).1.nodes = p.1.nodes := by
  intro es
  induction es with
  | nil => intro p hS hcov _ _; exact ⟨hS, hcov, rfl⟩
  | cons e rest ih =>
    intro p hS hcov hes hself
    rw [List.foldl_cons]
    by_cases hk : p.2.contains (edgeKeyOf e.callerId e.calleeId) = true
    · have hstep : mergeStep p e = p := by
        unfold mergeStep
        rw [if_pos hk]
      rw [hstep]
      exact ih p hS hcov (fun e' he' => hes e' (List.mem_cons_of_mem _ he'))
        (fun e' he' => hself e' (List.mem_cons_of_mem _ he'))
    · have hstep : mergeStep p e =
          (addEdge p.1 e, p.2 ++ [edgeKeyOf e.callerId e.calleeId]) := by
        unfold mergeStep
        rw [if_neg hk]
      rw [hstep]
      obtain ⟨h1, h2, h3⟩ := hS
      have hS' : SoundGraph (addEdge p.1 e) := by
        refine ⟨?_, ?_, ?_⟩
        · intro e' he'
          rw [addEdge_edges] at he'
          show mapHas p.1.nodes e'.callerId = true ∧ mapHas p.1.nodes e'.calleeId = true
          rcases List.mem_append.mp he' with hh | hh
          · exact h1 e' hh
          · rw [List.mem_singleton.mp hh]
            exact hes e (List.mem_cons_self _ _)
        · intro e' he'
          rw [addEdge_edges] at he'
          rcases List.mem_append.mp he' with hh | hh
          · exact h2 e' hh
          · rw [List.mem_singleton.mp hh]
            exact hself e (List.mem_cons_self _ _)
        · rw [addEdge_edges]
          refine List.pairwise_append.mpr ⟨h3, by simp, ?_⟩
          intro a ha b hb hab
          rw [List.mem_singleton.mp hb] at hab
          have hkey := hcov a ha
          rw [hab.1, hab.2] at hkey
          exact absurd hkey hk
      have hcov' : ∀ e' ∈ (addEdge p.1 e).edges,
          (p.2 ++ [edgeKeyOf e.callerId e.calleeId]).contains
            (edgeKeyOf e'.callerId e'.calleeId) = true := by
        intro e' he'
        rw [addEdge_edges] at he'
        rcases List.mem_append.mp he' with hh | hh
        · exact contains_append_left _ _ _ (hcov e' hh)
        · rw [List.mem_singleton.mp hh]
          exact contains_append_self _ _
      obtain ⟨hr1, hr2, hr3⟩ := ih (addEdge p.1 e, p.2 ++ [edgeKeyOf e.callerId e.calleeId])
        hS' hcov'
        (fun e' he' => hes e' (List.mem_cons_of_mem _ he'))
        (fun e' he' => hself e' (List.mem_cons_of_mem _ he'))
      exact ⟨hr1, hr2, hr3⟩

theorem mergeOne_inv (acc : CallGraph × List String) (g : CallGraph)
    (hS : SoundGraph acc.1)
    (hcov : ∀ e ∈ acc.1.edges, acc.2.contains (edgeKeyOf e.callerId e.calleeId) = true)
    (hg : SoundGraph g) (hWK : WellKeyed g) :
    SoundGraph (mergeOne acc g).1 ∧
    (∀ e ∈ (mergeOne acc g).1.edges,
      (mergeOne acc g).2.contains (edgeKeyOf e.callerId e.calleeId) = true) := by
  have hSW : SoundGraph (g.nodes.foldl (fun m kv => addNode m kv.2) acc.1) := by
    obtain ⟨h1, h2, h3⟩ := hS
    refine ⟨?_, ?_, ?_⟩
    · intro e he
      rw [foldl_addNode_edges] at he
      exact ⟨foldl_addNode_has_mono _ _ _ (h1 e he).1,
             foldl_addNode_has_mono _ _ _ (h1 e he).2⟩
    · intro e he
      rw [foldl_addNode_edges] at he
      exact h2 e he
    · rw [foldl_addNode_edges]
      exact h3
  have hcovW : ∀ e ∈ (g.nodes.foldl (fun m kv => addNode m kv.2) acc.1).edges,
      acc.2.contains (edgeKeyOf e.callerId e.calleeId) = true := by
    intro e he
    rw [foldl_addNode_edges] at he
    exact hcov e he
  have hes : ∀ e ∈ g.edges,
      mapHas (g.nodes.foldl (fun m kv => addNode m kv.2) acc.1).nodes e.callerId = true ∧
      mapHas (g.nodes.foldl (fun m kv => addNode m kv.2) acc.1).nodes e.calleeId = true := by
    intro e he
    obtain ⟨hc1, hc2⟩ := hg.1 e he
    constructor
    · obtain ⟨v, hv⟩ := Option.isSome_iff_exists.mp hc1
      exact foldl_addNode_has_of_mem g.nodes acc.1 e.callerId v (mapGet?_mem hv)
        (hWK (e.callerId, v) (mapGet?_mem hv)).symm
    · obtain ⟨v, hv⟩ := Option.isSome_iff_exists.mp hc2
      exact foldl_addNode_has_of_mem g.nodes acc.1 e.calleeId v (mapGet?_mem hv)
        (hWK (e.calleeId, v) (mapGet?_mem hv)).symm
  obtain ⟨hr1, hr2, _⟩ := mergeEdgeFold_inv g.edges
    (g.nodes.foldl (fun m kv => addNode m kv.2) acc.1, acc.2)
    hSW hcovW hes (fun e he => hg.2.1 e he)
  exact ⟨hr1, hr2⟩

theorem mergeFold_inv : ∀ (gs : List CallGraph) (p : CallGraph × List String),
    SoundGraph p.1 →
    (∀ e ∈ p.1.edges, p.2.contains (edgeKeyOf e.callerId e.calleeId) = true) →
    (∀ g ∈ gs, SoundGraph g ∧ WellKeyed g) →
    SoundGraph (gs.foldl mergeOne p).1 := by
  intro gs
  induction gs with
  | nil => intro p h _ _; exact h
  | cons g rest ih =>
    intro p hS hcov hgs
    rw [List.foldl_cons]
    obtain ⟨h1, h2⟩ := mergeOne_inv p g hS hcov
      (hgs g (List.mem_cons_self _ _)).1 (hgs g (List.mem_cons_self _ _)).2
    exact ih (mergeOne p g) h1 h2 (fun g' hg' => hgs g' (List.mem_cons_of_mem _ hg'))

theorem mergeGraphs_sound (gs : List CallGraph)
    (h : ∀ g ∈ gs, SoundGraph g ∧ WellKeyed g) : SoundGraph (mergeGraphs gs) :=
  mergeFold_inv gs (createEmptyGraph, [])
    ⟨fun e he => absurd he (List.not_mem_nil e),
     fun e he => absurd he (List.not_mem_nil e), List.Pairwise.nil⟩
    (fun e he => absurd he (List.not_mem_nil e)) h

theorem sliceNodesFold_edges (graph : CallGraph) : ∀ (keep : List String) (g0 : CallGraph),
    (keep.foldl
      (fun g id =>
        match mapGet? graph.nodes id with
        | some node => addNode g node
        | none => g)
      g0).edges = g0.edges := by
  intro keep
  induction keep with
  | nil => intro g0; rfl
  | cons i rest ih =>
    intro g0
    rw [List.foldl_cons, ih]
    cases hg : mapGet? graph.nodes i with
    | none => rfl
    | some node => exact addNode_edges g0 node

theorem sliceNodesFold_has_mono (graph : CallGraph) : ∀ (keep : List String) (g0 : CallGraph)
    (id : String), mapHas g0.nodes id = true →
    mapHas ((keep.foldl
      (fun g j =>
        match mapGet? graph.nodes j with
        | some node => addNode g node
        | none => g)
      g0)).nodes id = true := by
  intro keep
  induction keep with
  | nil => intro g0 id h; exact h
  | cons i rest ih =>
    intro g0 id h
    rw [List.foldl_cons]
    refine ih _ id ?_
    cases hg : mapGet? graph.nodes i with
    | none => exact h
    | some node => exact mapHas_addNode_mono _ _ _ h

theorem sliceNodesFold_has (graph : CallGraph) (hWK : WellKeyed graph) :
    ∀ (keep : List String) (g0 : CallGraph) (id : String), id ∈ keep →
      mapHas graph.nodes id = true →
      mapHas ((keep.foldl
        (fun g j =>
          match mapGet? graph.nodes j with
          | some node => addNode g node
          | none => g)
        g0)).nodes id = true := by
  intro keep
  induction keep with
  | nil => intro g0 id h _; exact absurd h (List.not_mem_nil _)
  | cons i rest ih =>
    intro g0 id hmem hhas
    rw [List.foldl_cons]
    rcases List.mem_cons.mp hmem with rfl | hh
    · obtain ⟨v, hv⟩ := Option.isSome_iff_exists.mp hhas
      refine sliceNodesFold_has_mono graph rest _ id ?_
      rw [hv]
      have hvid : id = v.id := hWK (id, v) (mapGet?_mem hv)
      rw [hvid]
      exact mapHas_addNode_self g0 v
    · exact ih _ id hh hhas

theorem sliceEdgeStep_nodes (keep : List String) (g : CallGraph) (e : CallEdge) :
    (sliceEdgeStep keep g e).nodes = g.nodes := by
  unfold sliceEdgeStep
  split
  · exact addEdge_nodes g e
  · rfl

theorem sliceEdgeFold_nodes (keep : List String) : ∀ (es : List CallEdge) (g0 : CallGraph),
    (es.foldl (sliceEdgeStep keep) g0).nodes = g0.nodes := by
  intro es
  induction es with
  | nil => intro g0; rfl
  | cons e rest ih =>
    intro g0
    rw [List.foldl_cons, ih, sliceEdgeStep_nodes]

theorem sliceEdgeFold_edges (keep : List String) : ∀ (es : List CallEdge) (g0 : CallGraph),
    (es.foldl (sliceEdgeStep keep) g0).edges =
      g0.edges ++ es.filter (fun e => keep.contains e.callerId && keep.contains e.calleeId) := by
  intro es
  induction es with
  | nil => intro g0; simp
  | cons e rest ih =>
    intro g0
    rw [List.foldl_cons, List.filter_cons]
    by_cases hc : keep.contains e.callerId ∧ keep.contains e.calleeId
    · have hb : (keep.contains e.callerId && keep.contains e.calleeId) = true := by
        rw [hc.1, hc.2]
        rfl
      have hstep : sliceEdgeStep keep g0 e = addEdge g0 e := by
        unfold sliceEdgeStep
        rw [if_pos hc]
      rw [hstep, ih, addEdge_edges]
      simp only [hb]
      simp
    · have hb : (keep.contains e.callerId && keep.contains e.calleeId) = false := by
        cases h1 : keep.contains e.callerId <;> cases h2 : keep.contains e.calleeId <;> simp_all
      have hstep : sliceEdgeStep keep g0 e = g0 := by
        unfold sliceEdgeStep
        rw [if_neg hc]
      rw [hstep, ih]
      simp only [hb]
      simp

theorem sliceGraph_sound (fuel : Nat) (g : CallGraph) (S T : List String) (H : CallGraph)
    (hS : SoundGraph g) (hWK : WellKeyed g) (h : sliceGraph fuel g S T = some H) :
    SoundGraph H := by
  unfold sliceGraph at h
  split at h
  · cases h
  · rename_i back hback
    split at h
    · cases h
    · rename_i fwd hfwd
      cases h
      have hedges : (sliceEdges g (sliceKeepNodes back fwd)
          (sliceWithNodes g (sliceKeepNodes back fwd))).edges =
          g.edges.filter (fun e => (sliceKeepNodes back fwd).contains e.callerId &&
            (sliceKeepNodes back fwd).contains e.calleeId) := by
        unfold sliceEdges
        rw [sliceEdgeFold_edges]
        have hwe : (sliceWithNodes g (sliceKeepNodes back fwd)).edges = [] := by
          unfold sliceWithNodes
          rw [sliceNodesFold_edges]
          rfl
        rw [hwe, List.nil_append]
      have hnodes : (sliceEdges g (sliceKeepNodes back fwd)
          (sliceWithNodes g (sliceKeepNodes back fwd))).nodes =
          (sliceWithNodes g (sliceKeepNodes back fwd)).nodes := by
        unfold sliceEdges
        exact sliceEdgeFold_nodes _ _ _
      refine ⟨?_, ?_, ?_⟩
      · intro e he
        rw [hedges] at he
        obtain ⟨hein, hcond⟩ := List.mem_filter.mp he
        rw [Bool.and_eq_true] at hcond
        have hc1 : e.callerId ∈ sliceKeepNodes back fwd := (contains_iff_mem _ _).mp hcond.1
        have hc2 : e.calleeId ∈ sliceKeepNodes back fwd := (contains_iff_mem _ _).mp hcond.2
        rw [hnodes]
        have hhas := hS.1 e hein
        constructor
        · unfold sliceWithNodes
          exact sliceNodesFold_has g hWK _ createEmptyGraph _ hc1 hhas.1
        · unfold sliceWithNodes
          exact sliceNodesFold_has g hWK _ createEmptyGraph _ hc2 hhas.2
      · intro e he
        rw [hedges] at he
        exact hS.2.1 e (List.mem_filter.mp he).1
      · rw [hedges]
        exact List.Pairwise.sublist (List.filter_sublist _) hS.2.2

/-! ## C8 helpers: breadth-first reachability -/

theorem bfsStep_mono1 : ∀ (l : List String) (p : List String × List String) (x : String),
    x ∈ p.1 → x ∈ (l.foldl bfsStep p).1 := by
  intro l
  induction l with
  | nil => intro p x h; exact h
  | cons n rest ih =>
    intro p x h
    rw [List.foldl_cons]
    refine ih _ x ?_
    unfold bfsStep
    split
    · exact h
    · exact List.mem_append_left _ h

theorem bfsStep_mono2 : ∀ (l : List String) (p : List String × List String) (x : String),
    x ∈ p.2 → x ∈ (l.foldl bfsStep p).2 := by
  intro l
  induction l with
  | nil => intro p x h; exact h
  | cons n rest ih =>
    intro p x h
    rw [List.foldl_cons]
    refine ih _ x ?_
    unfold bfsStep
    split
    · exact h
    · exact List.mem_append_left _ h

theorem bfsStep_all_in : ∀ (l : List String) (p : List String × List String),
    ∀ x ∈ l, x ∈ (l.foldl bfsStep p).1 := by
  intro l
  induction l with
  | nil => intro p x h; exact absurd h (List.not_mem_nil x)
  | cons n rest ih =>
    intro p x h
    rw [List.foldl_cons]
    rcases List.mem_cons.mp h with rfl | hr
    · refine bfsStep_mono1 rest _ x ?_
      unfold bfsStep
      split
      · rename_i hc
        exact (contains_iff_mem _ _).mp hc
      · exact List.mem_append_right _ (List.mem_singleton.mpr rfl)
    · exact ih _ x hr

theorem bfsStep_src1 : ∀ (l : List String) (p : List String × List String) (x : String),
    x ∈ (l.foldl bfsStep p).1 → x ∈ p.1 ∨ x ∈ l := by
  intro l
  induction l with
  | nil => intro p x h; exact Or.inl h
  | cons n rest ih =>
    intro p x h
    rw [List.foldl_cons] at h
    rcases ih _ x h with hh | hh
    · revert hh
      unfold bfsStep
      split
      · intro hh
        exact Or.inl hh
      · intro hh
        rcases List.mem_append.mp hh with h1 | h1
        · exact Or.inl h1
        · exact Or.inr (List.mem_cons.mpr (Or.inl (List.mem_singleton.mp h1)))
    · exact Or.inr (List.mem_cons_of_mem _ hh)

theorem bfsStep_src2 : ∀ (l : List String) (p : List String × List String) (x : String),
    x ∈ (l.foldl bfsStep p).2 → x ∈ p.2 ∨ x ∈ l := by
  intro l
  induction l with
  | nil => intro p x h; exact Or.inl h
  | cons n rest ih =>
    intro p x h
    rw [List.foldl_cons] at h
    rcases ih _ x h with hh | hh
    · revert hh
      unfold bfsStep
      split
      · intro hh
        exact Or.inl hh
      · intro hh
        rcases List.mem_append.mp hh with h1 | h1
        · exact Or.inl h1
        · exact Or.inr (List.mem_cons.mpr (Or.inl (List.mem_singleton.mp h1)))
    · exact Or.inr (List.mem_cons_of_mem _ hh)

theorem bfsStep_new_in2 : ∀ (l : List String) (p : List String × List String) (x : String),
    x ∈ (l.foldl bfsStep p).1 → x ∈ p.1 ∨ x ∈ (l.foldl bfsStep p).2 := by
  intro l
  induction l with
  | nil => intro p x h; exact Or.inl h
  | cons n rest ih =>
    intro p x h
    rw [List.foldl_cons] at h ⊢
    rcases ih _ x h with hh | hh
    · revert hh
      unfold bfsStep
      split
      · intro hh
        exact Or.inl hh
      · intro hh
        rcases List.mem_append.mp hh with h1 | h1
        · exact Or.inl h1
        · right
          refine bfsStep_mono2 rest _ x ?_
          show x ∈ p.2 ++ [n]
          exact List.mem_append_right _ h1
    · exact Or.inr hh

theorem bfsStep_sub21 : ∀ (l : List String) (p : List String × List String),
    (∀ x ∈ p.2, x ∈ p.1) → ∀ x ∈ (l.foldl bfsStep p).2, x ∈ (l.foldl bfsStep p).1 := by
  intro l
  induction l with
  | nil => intro p h x hx; exact h x hx
  | cons n rest ih =>
    intro p h x hx
    rw [List.foldl_cons] at hx ⊢
    refine ih _ ?_ x hx
    intro y hy
    unfold bfsStep at hy ⊢
    revert hy
    split
    · intro hy
      exact h y hy
    · intro hy
      rcases List.mem_append.mp hy with h1 | h1
      · exact List.mem_append_left _ (h y h1)
      · exact List.mem_append_right _ h1

theorem bfsReach_sound (succ : String → List String) (P : String → Prop)
    (hclosed : ∀ x, P x → ∀ y ∈ succ x, P y) :
    ∀ (fuel : Nat) (queue reachable out : List String),
      (∀ q ∈ queue, P q) → (∀ r ∈ reachable, P r) →
      bfsReach succ fuel queue reachable = some out →
      ∀ x ∈ out, P x := by
  intro fuel
  induction fuel with
  | zero =>
    intro queue reachable out _ _ heq
    exact absurd heq (by simp [bfsReach])
  | succ n ih =>
    intro queue reachable out hq hr heq
    cases queue with
    | nil =>
      rw [bfsReach] at heq
      cases heq
      exact hr
    | cons current rest =>
      rw [bfsReach] at heq
      refine ih (rest ++ ((succ current).foldl bfsStep (reachable, [])).2)
        ((succ current).foldl bfsStep (reachable, [])).1 out ?_ ?_ heq
      · intro q hq2
        rcases List.mem_append.mp hq2 with hh | hh
        · exact hq q (List.mem_cons_of_mem _ hh)
        · rcases bfsStep_src2 _ _ q hh with h1 | h1
          · exact absurd h1 (List.not_mem_nil q)
          · exact hclosed current (hq current (List.mem_cons_self _ _)) q h1
      · intro r hr2
        rcases bfsStep_src1 _ _ r hr2 with h1 | h1
        · exact hr r h1
        · exact hclosed current (hq current (List.mem_cons_self _ _)) r h1

theorem bfsReach_complete (succ : String → List String) :
    ∀ (fuel : Nat) (queue reachable out : List String),
      (∀ q ∈ queue, q ∈ reachable) →
      (∀ x ∈ reachable, x ∈ queue ∨ ∀ y ∈ succ x, y ∈ reachable) →
      bfsReach succ fuel queue reachable = some out →
      (∀ x ∈ reachable, x ∈ out) ∧ (∀ x ∈ out, ∀ y ∈ succ x, y ∈ out) := by
  intro fuel
  induction fuel with
  | zero =>
    intro queue reachable out _ _ heq
    exact absurd heq (by simp [bfsReach])
  | succ n ih =>
    intro queue reachable out hq hinv heq
    cases queue with
    | nil =>
      rw [bfsReach] at heq
      cases heq
      refine ⟨fun x hx => hx, ?_⟩
      intro x hx
      rcases hinv x hx with hh | hh
      · exact absurd hh (List.not_mem_nil x)
      · exact hh
    | cons current rest =>
      rw [bfsReach] at heq
      have hq' : ∀ q ∈ rest ++ ((succ current).foldl bfsStep (reachable, [])).2,
          q ∈ ((succ current).foldl bfsStep (reachable, [])).1 := by
        intro q hq2
        rcases List.mem_append.mp hq2 with hh | hh
        · exact bfsStep_mono1 _ _ q (hq q (List.mem_cons_of_mem _ hh))
        · exact bfsStep_sub21 _ _ (fun y hy => absurd hy (List.not_mem_nil y)) q hh
      have hinv' : ∀ x ∈ ((succ current).foldl bfsStep (reachable, [])).1,
          x ∈ rest ++ ((succ current).foldl bfsStep (reachable, [])).2 ∨
            ∀ y ∈ succ x, y ∈ ((succ current).foldl bfsStep (reachable, [])).1 := by
        intro x hx
        rcases bfsStep_new_in2 _ _ x hx with hh | hh
        · rcases hinv x hh with h1 | h1
          · rcases List.mem_cons.mp h1 with rfl | h2
            · right
              exact fun y hy => bfsStep_all_in _ _ y hy
            · exact Or.inl (List.mem_append_left _ h2)
          · right
            exact fun y hy => bfsStep_mono1 _ _ y (h1 y hy)
        · exact Or.inl (List.mem_append_right _ hh)
      obtain ⟨hsub, hcl⟩ := ih (rest ++ ((succ current).foldl bfsStep (reachable, [])).2)
        ((succ current).foldl bfsStep (reachable, [])).1 out hq' hinv' heq
      exact ⟨fun x hx => hsub x (bfsStep_mono1 _ _ x hx), hcl⟩

theorem seedFold_mem (g : CallGraph) (x : String) : ∀ (ids acc : List String),
    x ∈ ids.foldl
        (fun acc t => if mapHas g.nodes t ∧ ¬ acc.contains t then acc ++ [t] else acc) acc ↔
      x ∈ acc ∨ (x ∈ ids ∧ mapHas g.nodes x = true) := by
  intro ids
  induction ids with
  | nil => intro acc; simp
  | cons t rest ih =>
    intro acc
    rw [List.foldl_cons, ih]
    by_cases hc : mapHas g.nodes t = true ∧ ¬ acc.contains t = true
    · rw [if_pos hc]
      constructor
      · rintro (hx | hx)
        · rcases List.mem_append.mp hx with h | h
          · exact Or.inl h
          · right
            refine ⟨List.mem_cons.mpr (Or.inl (List.mem_singleton.mp h)), ?_⟩
            rw [List.mem_singleton.mp h]
            exact hc.1
        · exact Or.inr ⟨List.mem_cons_of_mem _ hx.1, hx.2⟩
      · rintro (hx | ⟨hmem, hhas⟩)
        · exact Or.inl (List.mem_append_left _ hx)
        · rcases List.mem_cons.mp hmem with rfl | hr
          · exact Or.inl (List.mem_append_right _ (List.mem_singleton.mpr rfl))
          · exact Or.inr ⟨hr, hhas⟩
    · rw [if_neg hc]
      constructor
      · rintro (hx | hx)
        · exact Or.inl hx
        · exact Or.inr ⟨List.mem_cons_of_mem _ hx.1, hx.2⟩
      · rintro (hx | ⟨hmem, hhas⟩)
        · exact Or.inl hx
        · rcases List.mem_cons.mp hmem with rfl | hr
          · left
            have hct : acc.contains x = true := by
              by_contra hnc
              exact hc ⟨hhas, hnc⟩
            exact (contains_iff_mem _ _).mp hct
          · exact Or.inr ⟨hr, hhas⟩

theorem seedReach_mem (g : CallGraph) (ids : List String) (x : String) :
    x ∈ seedReach g ids ↔ x ∈ ids ∧ mapHas g.nodes x = true := by
  unfold seedReach
  rw [seedFold_mem]
  simp

theorem fwdSucc_iff (g : CallGraph) (hW : WfAdj g) (x y : String) :
    y ∈ fwdSucc g x ↔ StepRel g x y := by
  unfold fwdSucc StepRel
  constructor
  · intro h
    obtain ⟨e, he, hey⟩ := List.mem_map.mp h
    have h2 := (hW.1 x e).mp he
    exact ⟨e, h2.1, h2.2, hey⟩
  · rintro ⟨e, he, hc, hy⟩
    exact List.mem_map.mpr ⟨e, (hW.1 x e).mpr ⟨he, hc⟩, hy⟩

theorem revSucc_iff (g : CallGraph) (hW : WfAdj g) (x y : String) :
    y ∈ revSucc g x ↔ StepRel g y x := by
  unfold revSucc StepRel
  constructor
  · intro h
    obtain ⟨e, he, hey⟩ := List.mem_map.mp h
    have h2 := (hW.2 x e).mp he
    exact ⟨e, h2.1, hey, h2.2⟩
  · rintro ⟨e, he, hc, hy⟩
    exact List.mem_map.mpr ⟨e, (hW.2 x e).mpr ⟨he, hy⟩, hc⟩

theorem out_closed_reach (succ : String → List String) (out : List String)
    (hclosed : ∀ x ∈ out, ∀ y ∈ succ x, y ∈ out) {s x : String} (hs : s ∈ out)
    (h : Relation.ReflTransGen (fun a b => b ∈ succ a) s x) : x ∈ out := by
  induction h with
  | refl => exact hs
  | tail h1 h2 ih => exact hclosed _ ih _ h2

theorem reaches_rtc_fwd (g : CallGraph) (hW : WfAdj g) {s x : String}
    (h : Reaches g s x) : Relation.ReflTransGen (fun a b => b ∈ fwdSucc g a) s x :=
  Relation.ReflTransGen.mono (fun a b hab => (fwdSucc_iff g hW a b).mpr hab) h

theorem back_reach_in (g : CallGraph) (hW : WfAdj g) (back : List String)
    (hcl : ∀ x ∈ back, ∀ y ∈ revSucc g x, y ∈ back) :
    ∀ {id t : String}, Reaches g id t → t ∈ back → id ∈ back := by
  intro id t h
  induction h using Relation.ReflTransGen.head_induction_on with
  | refl => exact fun ht => ht
  | head h1 h2 ih =>
    intro ht
    rename_i a c
    exact hcl c (ih ht) a ((revSucc_iff g hW c a).mpr h1)

theorem reaches_has (g : CallGraph) (hS : SoundGraph g) {s id : String}
    (hhas : mapHas g.nodes s = true) (h : Reaches g s id) : mapHas g.nodes id = true := by
  induction h with
  | refl => exact hhas
  | tail h1 h2 ih =>
    obtain ⟨e, he, hc1, hc2⟩ := h2
    rw [← hc2]
    exact (hS.1 e he).2

theorem mapHas_addNode_src (g0 : CallGraph) (n : FunctionNode) (id : String)
    (h : mapHas (addNode g0 n).nodes id = true) :
    mapHas g0.nodes id = true ∨ id = n.id := by
  unfold addNode at h
  revert h
  split
  · intro h
    exact Or.inl h
  · intro h
    have h' : mapHas (g0.nodes ++ [(n.id, n)]) id = true := h
    unfold mapHas at h'
    rw [mapGet?_append] at h'
    cases hg : mapGet? g0.nodes id with
    | some v =>
      left
      unfold mapHas
      rw [hg]
      rfl
    | none =>
      rw [hg] at h'
      right
      by_cases he : n.id = id
      · exact he.symm
      · exfalso
        rw [show mapGet? [(n.id, n)] id = none from by simp [mapGet?, he]] at h'
        simp at h'

theorem sliceNodesFold_has_src (graph : CallGraph) (hWK : WellKeyed graph) :
    ∀ (keep : List String) (g0 : CallGraph) (id : String),
      mapHas ((keep.foldl
        (fun g j =>
          match mapGet? graph.nodes j with
          | some node => addNode g node
          | none => g)
        g0)).nodes id = true →
      mapHas g0.nodes id = true ∨ (id ∈ keep ∧ mapHas graph.nodes id = true) := by
  intro keep
  induction keep with
  | nil => intro g0 id h; exact Or.inl h
  | cons j rest ih =>
    intro g0 id h
    rw [List.foldl_cons] at h
    rcases ih _ id h with hh | hh
    · revert hh
      cases hg : mapGet? graph.nodes j with
      | none =>
        intro hh
        exact Or.inl hh
      | some node =>
        intro hh
        rcases mapHas_addNode_src g0 node id hh with h1 | h1
        · exact Or.inl h1
        · right
          have hjid : j = node.id := hWK (j, node) (mapGet?_mem hg)
          have hidj : id = j := by rw [h1, ← hjid]
          refine ⟨List.mem_cons.mpr (Or.inl hidj), ?_⟩
          rw [hidj]
          unfold mapHas
          rw [hg]
          rfl
    · exact Or.inr ⟨List.mem_cons_of_mem _ hh.1, hh.2⟩

theorem sliceKeepNodes_mem (back fwd : List String) (id : String) :
    id ∈ sliceKeepNodes back fwd ↔ id ∈ fwd ∧ id ∈ back := by
  unfold sliceKeepNodes
  rw [List.mem_filter]
  constructor
  · rintro ⟨h1, h2⟩
    exact ⟨h1, (contains_iff_mem _ _).mp h2⟩
  · rintro ⟨h1, h2⟩
    exact ⟨h1, (contains_iff_mem _ _).mpr h2⟩

theorem WfAdj_of_check (g : CallGraph)
    (h1 : ∀ kv ∈ g.forwardEdges, ∀ e ∈ kv.2, e ∈ g.edges ∧ e.callerId = kv.1)
    (h2 : ∀ e ∈ g.edges, e ∈ (mapGet? g.forwardEdges e.callerId).getD [])
    (h3 : ∀ kv ∈ g.reverseEdges, ∀ e ∈ kv.2, e ∈ g.edges ∧ e.calleeId = kv.1)
    (h4 : ∀ e ∈ g.edges, e ∈ (mapGet? g.reverseEdges e.calleeId).getD []) :
    WfAdj g := by
  constructor
  · intro x e
    constructor
    · intro he
      cases hg : mapGet? g.forwardEdges x with
      | none =>
        rw [hg] at he
        exact absurd he (List.not_mem_nil e)
      | some es =>
        rw [hg] at he
        exact h1 (x, es) (mapGet?_mem hg) e he
    · rintro ⟨he, hc⟩
      rw [← hc]
      exact h2 e he
  · intro x e
    constructor
    · intro he
      cases hg : mapGet? g.reverseEdges x with
      | none =>
        rw [hg] at he
        exact absurd he (List.not_mem_nil e)
      | some es =>
        rw [hg] at he
        exact h3 (x, es) (mapGet?_mem hg) e he
    · rintro ⟨he, hc⟩
      rw [← hc]
      exact h4 e he

/-- C8: characterization of `sliceGraph` on a sound, well-keyed graph with
coherent adjacency maps. The slice keeps exactly the ids forward-reachable
from a member of `S` present in the graph and backward-reachable to a member
of `T` present in the graph; its edges are exactly the edges of the graph
whose two endpoints are both kept; every kept id lies on a path from some
`s ∈ S` through it to some `t ∈ T`; and an empty intersection yields the
empty graph. -/
theorem c8_slice_characterization (fuel : Nat) (g : CallGraph) (S T : List String)
    (H : CallGraph) (hSo : SoundGraph g) (hWA : WfAdj g) (hWK : WellKeyed g)
    (h : sliceGraph fuel g S T = some H) :
    (∀ id, mapHas H.nodes id = true ↔
      ((∃ s ∈ S, mapHas g.nodes s = true ∧ Reaches g s id) ∧
       (∃ t ∈ T, mapHas g.nodes t = true ∧ Reaches g id t))) ∧
    (∀ e, e ∈ H.edges ↔
      (e ∈ g.edges ∧
       ((∃ s ∈ S, mapHas g.nodes s = true ∧ Reaches g s e.callerId) ∧
        (∃ t ∈ T, mapHas g.nodes t = true ∧ Reaches g e.callerId t)) ∧
       ((∃ s ∈ S, mapHas g.nodes s = true ∧ Reaches g s e.calleeId) ∧
        (∃ t ∈ T, mapHas g.nodes t = true ∧ Reaches g e.calleeId t)))) ∧
    (∀ id, mapHas H.nodes id = true →
      ∃ s t, s ∈ S ∧ t ∈ T ∧ Reaches g s id ∧ Reaches g id t) ∧
    ((∀ id, ¬((∃ s ∈ S, mapHas g.nodes s = true ∧ Reaches g s id) ∧
        (∃ t ∈ T, mapHas g.nodes t = true ∧ Reaches g id t))) →
      H.nodes = [] ∧ H.edges = []) := by
  unfold sliceGraph at h
  split at h
  · cases h
  · rename_i back hback
    split at h
    · cases h
    · rename_i fwd hfwd
      cases h
      have hfwdc : ∀ id, id ∈ fwd ↔
          ∃ s ∈ S, mapHas g.nodes s = true ∧ Reaches g s id := by
        intro id
        constructor
        · intro hid
          refine bfsReach_sound (fwdSucc g)
            (fun x => ∃ s ∈ S, mapHas g.nodes s = true ∧ Reaches g s x)
            ?_ fuel _ _ fwd ?_ ?_ hfwd id hid
          · rintro x ⟨s, hsS, hsh, hr⟩ y hy
            exact ⟨s, hsS, hsh, Relation.ReflTransGen.tail hr ((fwdSucc_iff g hWA x y).mp hy)⟩
          · intro q hq
            obtain ⟨ha, hb⟩ := (seedReach_mem g S q).mp hq
            exact ⟨q, ha, hb, Relation.ReflTransGen.refl⟩
          · intro r hr
            obtain ⟨ha, hb⟩ := (seedReach_mem g S r).mp hr
            exact ⟨r, ha, hb, Relation.ReflTransGen.refl⟩
        · rintro ⟨s, hsS, hsh, hr⟩
          obtain ⟨hsub, hcl⟩ := bfsReach_complete (fwdSucc g) fuel _ _ fwd
            (fun q hq => hq) (fun x hx => Or.inl hx) hfwd
          exact out_closed_reach (fwdSucc g) fwd hcl
            (hsub s ((seedReach_mem g S s).mpr ⟨hsS, hsh⟩)) (reaches_rtc_fwd g hWA hr)
      have hbackc : ∀ id, id ∈ back ↔
          ∃ t ∈ T, mapHas g.nodes t = true ∧ Reaches g id t := by
        unfold backwardReachable at hback
        intro id
        constructor
        · intro hid
          refine bfsReach_sound (revSucc g)
            (fun x => ∃ t ∈ T, mapHas g.nodes t = true ∧ Reaches g x t)
            ?_ fuel _ _ back ?_ ?_ hback id hid
          · rintro x ⟨t, htT, hth, hr⟩ y hy
            exact ⟨t, htT, hth, Relation.ReflTransGen.head ((revSucc_iff g hWA x y).mp hy) hr⟩
          · intro q hq
            obtain ⟨ha, hb⟩ := (seedReach_mem g T q).mp hq
            exact ⟨q, ha, hb, Relation.ReflTransGen.refl⟩
          · intro r hr
            obtain ⟨ha, hb⟩ := (seedReach_mem g T r).mp hr
            exact ⟨r, ha, hb, Relation.ReflTransGen.refl⟩
        · rintro ⟨t, htT, hth, hr⟩
          obtain ⟨hsub, hcl⟩ := bfsReach_complete (revSucc g) fuel _ _ back
            (fun q hq => hq) (fun x hx => Or.inl hx) hback
          exact back_reach_in g hWA back hcl hr
            (hsub t ((seedReach_mem g T t).mpr ⟨htT, hth⟩))
      have hkeep : ∀ id, id ∈ sliceKeepNodes back fwd ↔
          ((∃ s ∈ S, mapHas g.nodes s = true ∧ Reaches g s id) ∧
           (∃ t ∈ T, mapHas g.nodes t = true ∧ Reaches g id t)) := by
        intro id
        rw [sliceKeepNodes_mem, hfwdc, hbackc]
      have hkeephas : ∀ id, id ∈ sliceKeepNodes back fwd → mapHas g.nodes id = true := by
        intro id hid
        obtain ⟨⟨s, hsS, hsh, hr⟩, _⟩ := (hkeep id).mp hid
        exact reaches_has g hSo hsh hr
      have hnodes : (sliceEdges g (sliceKeepNodes back fwd)
          (sliceWithNodes g (sliceKeepNodes back fwd))).nodes =
          (sliceWithNodes g (sliceKeepNodes back fwd)).nodes := by
        unfold sliceEdges
        exact sliceEdgeFold_nodes _ _ _
      have hedges : (sliceEdges g (sliceKeepNodes back fwd)
          (sliceWithNodes g (sliceKeepNodes back fwd))).edges =
          g.edges.filter (fun e => (sliceKeepNodes back fwd).contains e.callerId &&
            (sliceKeepNodes back fwd).contains e.calleeId) := by
        unfold sliceEdges
        rw [sliceEdgeFold_edges]
        have hwe : (sliceWithNodes g (sliceKeepNodes back fwd)).edges = [] := by
          unfold sliceWithNodes
          rw [sliceNodesFold_edges]
          rfl
        rw [hwe, List.nil_append]
      have hnodememb : ∀ id, mapHas (sliceEdges g (sliceKeepNodes back fwd)
          (sliceWithNodes g (sliceKeepNodes back fwd))).nodes id = true ↔
          id ∈ sliceKeepNodes back fwd := by
        intro id
        rw [hnodes]
        constructor
        · intro hid
          rcases sliceNodesFold_has_src g hWK (sliceKeepNodes back fwd) createEmptyGraph id
            hid with h1 | h1
          · exact absurd h1 (by simp [createEmptyGraph, mapHas, mapGet?])
          · exact h1.1
        · intro hid
          show mapHas (sliceWithNodes g (sliceKeepNodes back fwd)).nodes id = true
          unfold sliceWithNodes
          exact sliceNodesFold_has g hWK _ createEmptyGraph _ hid (hkeephas id hid)
      refine ⟨?_, ?_, ?_, ?_⟩
      · intro id
        rw [hnodememb id, hkeep id]
      · intro e
        rw [hedges, List.mem_filter]
        constructor
        · rintro ⟨h1, h2⟩
          rw [Bool.and_eq_true] at h2
          exact ⟨h1, (hkeep _).mp ((contains_iff_mem _ _).mp h2.1),
                 (hkeep _).mp ((contains_iff_mem _ _).mp h2.2)⟩
        · rintro ⟨h1, h2, h3⟩
          refine ⟨h1, ?_⟩
          rw [Bool.and_eq_true]
          exact ⟨(contains_iff_mem _ _).mpr ((hkeep _).mpr h2),
                 (contains_iff_mem _ _).mpr ((hkeep _).mpr h3)⟩
      · intro id hid
        obtain ⟨⟨s, hsS, hsh, hr1⟩, ⟨t, htT, hth, hr2⟩⟩ := (hkeep id).mp ((hnodememb id).mp hid)
        exact ⟨s, t, hsS, htT, hr1, hr2⟩
      · intro hnone
        have hkeepnil : sliceKeepNodes back fwd = [] := by
          rcases hk : sliceKeepNodes back fwd with _ | ⟨a, l⟩
          · rfl
          · exact absurd ((hkeep a).mp (hk ▸ List.mem_cons_self a l)) (hnone a)
        constructor
        · rw [hnodes]
          unfold sliceWithNodes
          rw [hkeepnil]
          rfl
        · rw [hedges, hkeepnil]
          have hfil : ∀ es : List CallEdge, es.filter (fun e =>
              ([] : List String).contains e.callerId &&
              ([] : List String).contains e.calleeId) = [] := by
            intro es
            induction es with
            | nil => rfl
            | cons e rest ih =>
              rw [List.filter_cons]
              simp [ih]
          exact hfil g.edges

/-- Witness for C8: the slice of the chain `A → B → C` between `S = [A]` and
`T = [C]`, whose middle node `B` lies on the path `A → B → C`. -/
theorem c8_witness :
    ∃ H, sliceGraph 9 swGraph ["A"] ["C"] = some H ∧
      ∃ s t, s ∈ ["A"] ∧ t ∈ ["C"] ∧ Reaches swGraph s "B" ∧ Reaches swGraph "B" t := by
  have hwa : WfAdj swGraph :=
    WfAdj_of_check swGraph (by decide) (by decide) (by decide) (by decide)
  have hsg : SoundGraph swGraph := by
    unfold SoundGraph
    exact ⟨by decide, by decide, by decide⟩
  have hwk : WellKeyed swGraph := by
    unfold WellKeyed
    decide
  refine ⟨_, rfl, ?_⟩
  exact (c8_slice_characterization 9 swGraph ["A"] ["C"] _ hsg hwa hwk rfl).2.2.1 "B" (by decide)

/-- C7: graph soundness of the three producers. A graph returned by
`forwardBfs` (for an id-coherent resolver) is sound; `mergeGraphs` of sound,
well-keyed graphs is sound; and a slice of a sound, well-keyed graph is
sound — every edge's endpoints are nodes of the same graph, there are no
self-edges, and no two edges share a `(caller, callee)` pair. -/
theorem c7_producers_sound :
    (∀ (fuel : Nat) (sourceId : String) (r : ResolverM) (o : BfsOptions) (g : CallGraph),
      ROk r → forwardBfs fuel sourceId r o = some g → SoundGraph g) ∧
    (∀ gs : List CallGraph, (∀ g ∈ gs, SoundGraph g ∧ WellKeyed g) →
      SoundGraph (mergeGraphs gs)) ∧
    (∀ (fuel : Nat) (g : CallGraph) (S T : List String) (H : CallGraph),
      SoundGraph g → WellKeyed g → sliceGraph fuel g S T = some H → SoundGraph H) :=
  ⟨fun fuel sourceId r o g hR h => forwardBfs_sound fuel sourceId r o g hR h,
   mergeGraphs_sound,
   fun fuel g S T H hS hWK h => sliceGraph_sound fuel g S T H hS hWK h⟩

/-- Witness for C7: the three producers applied to the concrete chain graph
`A → B → C` and the two-call-site resolver scenario. -/
theorem c7_witness :
    (∃ g, forwardBfs 10 "/a.ts::main" capResolver { maxDepth := 5, maxNodes := 9 } = some g ∧
      SoundGraph g) ∧
    SoundGraph (mergeGraphs [swGraph, swGraph]) ∧
    (∃ H, sliceGraph 9 swGraph ["A"] ["C"] = some H ∧ SoundGraph H) := by
  refine ⟨⟨_, rfl, ?_⟩, ?_, ⟨_, rfl, ?_⟩⟩
  · refine c7_producers_sound.1 10 "/a.ts::main" capResolver
      { maxDepth := 5, maxNodes := 9 } _ ?_ rfl
    intro cs f fn res h
    simp only [capResolver] at h
    split at h
    · rename_i n hn
      split at h
      · cases h
        rfl
      · cases h
    · cases h
  · have hsw : SoundGraph swGraph ∧ WellKeyed swGraph := by
      constructor
      · unfold SoundGraph
        exact ⟨by decide, by decide, by decide⟩
      · unfold WellKeyed
        decide
    refine c7_producers_sound.2.1 [swGraph, swGraph] ?_
    intro g hg
    rcases List.mem_cons.mp hg with rfl | hg2
    · exact hsw
    · rcases List.mem_cons.mp hg2 with rfl | hg3
      · exact hsw
      · exact absurd hg3 (List.not_mem_nil g)
  · have hsw2 : SoundGraph swGraph ∧ WellKeyed swGraph := by
      constructor
      · unfold SoundGraph
        exact ⟨by decide, by decide, by decide⟩
      · unfold WellKeyed
        decide
    exact c7_producers_sound.2.2 9 swGraph ["A"] ["C"] _ hsw2.1 hsw2.2 rfl
